import Mathlib

/-!
Verification of the commit-viz collector (`commit_viz/sources/git.py` and
`commit_viz/sources/change_flow.py`) against its specification.

The Python code is shallowly embedded: timestamps are UTC epoch seconds
(`Int`), float day-arithmetic is modelled exactly by `ℚ`, Python strings are
Lean `String` (ASCII lower-casing, which covers every keyword the code
matches), dictionaries are association lists or per-key fold functions, and
exceptions are `Option`.  All definitions are executable and structurally
recursive so that concrete runs evaluate by `decide`.
-/

namespace CommitViz

/-! ## String primitives (model of Python `str.lower` and `in`) -/

/-- Lower-case one character (ASCII range, which covers all classifier
keywords and date-bound literals appearing in the code). -/
def lowerChar (c : Char) : Char :=
  if 65 ≤ c.toNat && c.toNat ≤ 90 then Char.ofNat (c.toNat + 32) else c

/-- Model of Python `message.lower()`. -/
def lowerStr (s : String) : String := ⟨s.data.map lowerChar⟩

/-- Does the first list lead (start) the second one?  Auxiliary for
substring containment. -/
def leadsWith : List Char → List Char → Bool
  | [], _ => true
  | _ :: _, [] => false
  | a :: as, b :: bs => a == b && leadsWith as bs

/-- Substring containment on character lists: `hasSubstr pat hay` models
Python `pat in hay`. -/
def hasSubstr (pat : List Char) : List Char → Bool
  | [] => pat.isEmpty
  | b :: bs => leadsWith pat (b :: bs) || hasSubstr pat bs

/-- Model of Python `kw in msg` for strings. -/
def strContains (hay kw : String) : Bool := hasSubstr kw.data hay.data

/-- Boolean lexicographic comparison of character lists; models Python
string comparison used by `sorted(...)`. -/
def lexLe : List Char → List Char → Bool
  | [], _ => true
  | _ :: _, [] => false
  | a :: as, b :: bs => a < b || (a == b && lexLe as bs)

/-- String order used for `sorted(...)[0]` on branch names. -/
def strLe (a b : String) : Prop := lexLe a.data b.data = true

instance : DecidableRel strLe := fun a b => by unfold strLe; infer_instance

/-! ## Classifier tables (`git.py`, `_CATEGORY_KEYWORDS` and
`_CONVENTIONAL_TO_CATEGORY`) -/

/-- The ordered keyword table `_CATEGORY_KEYWORDS` from `git.py`.  Order
matters: first match wins. -/
def CATEGORY_KEYWORDS : List (String × List String) :=
  [ ("merge", ["merge pull request", "merge branch", "merge remote",
               "merged in", "merge commit", "squash and merge"]),
    ("squash", ["squash", "squashed commit", "fixup!", "amend"]),
    ("conflict", ["merge conflict", "conflict resolution", "resolve conflict",
                  "fix conflict", "resolved merge", "fix merge"]),
    ("release", ["release", "bump version", "version bump", "prepare release"]),
    ("bugfix", ["fix", "bugfix", "hotfix", "patch", "repair", "resolve"]),
    ("feature", ["feat", "add", "implement", "introduce", "new"]),
    ("docs", ["doc", "readme", "changelog", "license", "comment"]),
    ("test", ["test", "spec", "coverage"]),
    ("ci", ["ci", "pipeline", "workflow", "github action", "travis", "jenkins"]),
    ("refactor", ["refactor", "restructure", "reorganize", "clean", "simplify"]) ]

/-- The map `_CONVENTIONAL_TO_CATEGORY` from `git.py`. -/
def CONVENTIONAL_TO_CATEGORY : List (String × String) :=
  [ ("feat", "feature"), ("fix", "bugfix"), ("docs", "docs"),
    ("style", "refactor"), ("refactor", "refactor"), ("perf", "refactor"),
    ("test", "test"), ("build", "ci"), ("ci", "ci"),
    ("chore", "other"), ("revert", "other") ]

/-- Model of Python `dict.get(key, dflt)` on an association list. -/
def lookupD (table : List (String × String)) (key dflt : String) : String :=
  match table.find? (fun p => p.1 == key) with
  | some p => p.2
  | none => dflt

/-- All keywords the table associates with a category name; models the inner
loop `for cat, keywords in _CATEGORY_KEYWORDS: if cat != category: continue`. -/
def kwsOf (category : String) : List String :=
  ((CATEGORY_KEYWORDS.filter (fun p => p.1 == category)).map Prod.snd).flatten

/-- Does the (already lower-cased) message contain any of the keywords? -/
def containsAny (msgLower : String) (kws : List String) : Bool :=
  kws.any (fun kw => strContains msgLower kw)

/-- The "real work" keyword tuple from the merge-commit auto-detection rule
in `_classify_category`. -/
def REAL_WORK_KEYWORDS : List String :=
  ["feat", "fix", "add", "implement", "release", "doc", "test"]

/-- The keyword-based fallback loop at the end of `_classify_category`:
scan `_CATEGORY_KEYWORDS` in order, skipping merge/squash/conflict, and
return the first category with a keyword contained in the message. -/
def fallbackScan (msgLower : String) : String :=
  match CATEGORY_KEYWORDS.find? (fun p =>
      (p.1 != "merge" && p.1 != "squash" && p.1 != "conflict") &&
      containsAny msgLower p.2) with
  | some p => p.1
  | none => "other"

/-- Model of `_classify_category(message, conventional_type, is_merge_commit)`
from `git.py`.  `conventional_type = some t` models a non-None Python value;
the Python truthiness test `if conventional_type:` is also false for the
empty string, hence the extra `t != ""` test. -/
def classify_category (message : String) (conventional_type : Option String)
    (is_merge_commit : Bool) : String :=
  let msgLower := lowerStr message
  if containsAny msgLower (kwsOf "conflict") then "conflict"
  else if containsAny msgLower (kwsOf "merge") then "merge"
  else if containsAny msgLower (kwsOf "squash") then "squash"
  else if is_merge_commit && !(containsAny msgLower REAL_WORK_KEYWORDS) then "merge"
  else
    match conventional_type with
    | some t =>
        if t != "" then lookupD CONVENTIONAL_TO_CATEGORY t "other"
        else fallbackScan msgLower
    | none => fallbackScan msgLower

example : classify_category "Merge branch dev into main" none true = "merge" := by decide

example : classify_category "feat(ui): add button" (some "feat") false = "feature" := by decide

/-! ## Date-range bounds (`git.py`, `_parse_date_bound` / `_in_date_range`) -/

/-- The literal words treated as an unbounded date bound. -/
def DATE_UNBOUNDED_WORDS : List String :=
  ["all", "beginning", "present", "now", "today"]

/-- Model of `_parse_date_bound`.  `parseIso` stands for the Python library
call `datetime.fromisoformat` (UTC epoch seconds on success, `none` models
the `ValueError` branch, which the code turns into `None`). -/
def parse_date_bound (parseIso : String → Option Int) (value : String) :
    Option Int :=
  if value == "" || DATE_UNBOUNDED_WORDS.contains (lowerStr value) then none
  else parseIso value

/-- Model of `_in_date_range`: a missing bound never filters, a present
bound filters strictly outside of it (hence inclusively). -/
def in_date_range (parseIso : String → Option Int) (ts : Int)
    (start stop : String) : Bool :=
  if (parse_date_bound parseIso start).elim false (fun s => decide (ts < s)) then
    false
  else if (parse_date_bound parseIso stop).elim false (fun e => decide (e < ts)) then
    false
  else true

/-! ## Default-branch detection (`git.py`, `_detect_default_branch`) -/

/-- Tail of the priority chain of `_detect_default_branch`: "master", else
the lexicographically first branch name, else the literal "main".  Models
`return "master" ... return sorted(branch_names)[0] if branch_names else
"main"`. -/
def detect_default_tail (branch_names : List String) : String :=
  if "master" ∈ branch_names then "master"
  else
    match branch_names.insertionSort strLe with
    | [] => "main"
    | b :: _ => b

/-- Model of `_detect_default_branch`.  `active = none` models the
`TypeError` GitPython raises on a detached HEAD (the `except TypeError`
branch falls through the chain). -/
def detect_default_branch (branch_names : List String)
    (active : Option String) : String :=
  if "main" ∈ branch_names then "main"
  else
    match active with
    | some a => if a ∈ branch_names then a else detect_default_tail branch_names
    | none => detect_default_tail branch_names

/-- Modelled from the claim, for refutation only: the priority chain as
claim C9 literally states it, in which the currently checked-out branch is
skipped only when HEAD is detached (not when it is absent from the scanned
branch names). -/
def detect_default_branch_claimed (branch_names : List String)
    (active : Option String) : String :=
  if "main" ∈ branch_names then "main"
  else
    match active with
    | some a => a
    | none => detect_default_tail branch_names

/-! ## Order facts about the string comparison -/

theorem lexLe_refl : ∀ (as : List Char), lexLe as as = true := by
  intro as
  induction as with
  | nil => rfl
  | cons a as ih =>
    simp only [lexLe, Bool.or_eq_true, decide_eq_true_eq, Bool.and_eq_true,
      beq_iff_eq]
    exact Or.inr ⟨trivial, ih⟩

theorem lexLe_total (as bs : List Char) :
    lexLe as bs = true ∨ lexLe bs as = true := by
  induction as generalizing bs with
  | nil => exact Or.inl rfl
  | cons a as ih =>
    cases bs with
    | nil => exact Or.inr rfl
    | cons b bs =>
      simp only [lexLe, Bool.or_eq_true, decide_eq_true_eq, Bool.and_eq_true,
        beq_iff_eq]
      rcases lt_trichotomy a b with h | h | h
      · exact Or.inl (Or.inl h)
      · rcases ih bs with ht | ht
        · exact Or.inl (Or.inr ⟨h, ht⟩)
        · exact Or.inr (Or.inr ⟨h.symm, ht⟩)
      · exact Or.inr (Or.inl h)

theorem lexLe_trans :
    ∀ {as bs cs : List Char}, lexLe as bs = true → lexLe bs cs = true →
      lexLe as cs = true := by
  intro as
  induction as with
  | nil => intro bs cs _ _; rfl
  | cons a as ih =>
    intro bs cs h1 h2
    cases bs with
    | nil => simp [lexLe] at h1
    | cons b bs =>
      cases cs with
      | nil => simp [lexLe] at h2
      | cons c cs =>
        simp only [lexLe, Bool.or_eq_true, decide_eq_true_eq,
          Bool.and_eq_true, beq_iff_eq] at h1 h2 ⊢
        rcases h1 with h1 | ⟨rfl, h1⟩
        · rcases h2 with h2 | ⟨rfl, _⟩
          · exact Or.inl (h1.trans h2)
          · exact Or.inl h1
        · rcases h2 with h2 | ⟨rfl, h2⟩
          · exact Or.inl h2
          · exact Or.inr ⟨rfl, ih h1 h2⟩

instance : IsTotal String strLe := ⟨fun a b => lexLe_total a.data b.data⟩

instance : IsTrans String strLe := ⟨fun _ _ _ => lexLe_trans⟩

theorem strLe_refl (a : String) : strLe a a := lexLe_refl a.data

/-- The head of the insertion sort of a non-empty list of strings is its
least element. -/
theorem insertionSort_head_min {l : List String} {x : String} {t : List String}
    (hsort : l.insertionSort strLe = x :: t) :
    x ∈ l ∧ ∀ b ∈ l, strLe x b := by
  have hperm := List.perm_insertionSort strLe l
  have hsorted := List.sorted_insertionSort strLe l
  rw [hsort] at hperm hsorted
  constructor
  · exact hperm.mem_iff.mp (List.mem_cons_self x t)
  · intro b hb
    have hb2 : b ∈ x :: t := hperm.mem_iff.mpr hb
    rcases List.mem_cons.mp hb2 with rfl | hb3
    · exact strLe_refl b
    · exact List.rel_of_sorted_cons hsorted b hb3

/-! ## Claim C1 -/

/-- C1: for every commit, `classify_category` checks conflict-indicating
phrases, then merge-indicating phrases, then squash-indicating phrases, in
that fixed order, before any other rule, and a match short-circuits all
later rules, including the conventional-type mapping; in particular
"fix: resolve merge conflict in parser" with conventional type "fix" is
classified as conflict, not bugfix. -/
theorem claim1_classifier_structural_priority :
    ∀ (message : String) (ct : Option String) (is_merge : Bool),
      (containsAny (lowerStr message) (kwsOf "conflict") = true →
          classify_category message ct is_merge = "conflict") ∧
      (containsAny (lowerStr message) (kwsOf "conflict") = false →
        containsAny (lowerStr message) (kwsOf "merge") = true →
          classify_category message ct is_merge = "merge") ∧
      (containsAny (lowerStr message) (kwsOf "conflict") = false →
        containsAny (lowerStr message) (kwsOf "merge") = false →
        containsAny (lowerStr message) (kwsOf "squash") = true →
          classify_category message ct is_merge = "squash") ∧
      classify_category "fix: resolve merge conflict in parser" (some "fix")
          false = "conflict" := by
  intro message ct is_merge
  refine ⟨fun h1 => ?_, fun h1 h2 => ?_, fun h1 h2 h3 => ?_, by decide⟩
  · unfold classify_category
    simp only [h1, if_true]
  · unfold classify_category
    simp only [h1, h2, if_true, Bool.false_eq_true, if_false]
  · unfold classify_category
    simp only [h1, h2, h3, if_true, Bool.false_eq_true, if_false]

/-- Witness for C1 at concrete inputs. -/
theorem claim1_witness :
    classify_category "fix: resolve merge conflict in parser" (some "fix")
        false = "conflict" ∧
    classify_category "Merge branch dev" (some "fix") false = "merge" := by
  constructor
  · exact (claim1_classifier_structural_priority "x" none false).2.2.2
  · exact (claim1_classifier_structural_priority "Merge branch dev"
      (some "fix") false).2.1 (by decide) (by decide)

/-! ## Claim C8 -/

/-- C8: an empty date bound, any of the literal words "all", "beginning",
"present", "now", "today" (case-insensitively), or an unparsable value is
treated as unbounded (the modelled parse never raises), and a parsable
bound filters inclusively: a timestamp equal to the start or end bound is
kept. -/
theorem claim8_date_bound_permissive_and_inclusive :
    ∀ (parseIso : String → Option Int) (value start stop : String) (ts : Int),
      ((value = "" ∨ DATE_UNBOUNDED_WORDS.contains (lowerStr value) = true ∨
          parseIso value = none) →
        parse_date_bound parseIso value = none) ∧
      (in_date_range parseIso ts start stop = true ↔
        (∀ s, parse_date_bound parseIso start = some s → s ≤ ts) ∧
        (∀ e, parse_date_bound parseIso stop = some e → ts ≤ e)) := by
  intro parseIso value start stop ts
  constructor
  · intro h
    unfold parse_date_bound
    rcases h with h | h | h
    · simp [h]
    · have h2 : lowerStr value ∈ DATE_UNBOUNDED_WORDS := by simpa using h
      simp [h2]
    · split
      · rfl
      · exact h
  · unfold in_date_range
    rcases hs : parse_date_bound parseIso start with _ | s <;>
      rcases he : parse_date_bound parseIso stop with _ | e <;>
        simp [Option.elim, not_lt]

/-- Witness for C8: the word "ALL" (any case) is unbounded; a timestamp
exactly equal to both bounds is kept. -/
theorem claim8_witness :
    parse_date_bound (fun _ => some 5) "ALL" = none ∧
    in_date_range (fun _ => some 5) 5 "2020-01-01" "2020-01-01" = true := by
  constructor
  · exact (claim8_date_bound_permissive_and_inclusive (fun _ => some 5) "ALL"
      "" "" 0).1 (Or.inr (Or.inl (by decide)))
  · exact ((claim8_date_bound_permissive_and_inclusive (fun _ => some 5) ""
      "2020-01-01" "2020-01-01" 5).2).mpr
      ⟨fun s hs => by injection hs with h; omega,
       fun e he => by injection he with h; omega⟩

/-! ## Claim C9 -/

/-- C9 counterexample: when the checked-out branch is not among the scanned
branch names (for instance it is being deleted or is shadowed by the
origin-stripping), the code skips it and falls through to "master", while
the claimed chain would select it.  So the claim as stated is false. -/
theorem claim9_counterexample :
    detect_default_branch ["feature", "master"] (some "gone") = "master" ∧
    detect_default_branch_claimed ["feature", "master"] (some "gone") = "gone" ∧
    detect_default_branch ["feature", "master"] (some "gone") ≠
      detect_default_branch_claimed ["feature", "master"] (some "gone") := by
  refine ⟨by decide, by decide, by decide⟩

/-- C9 (amended): the default branch is selected by the priority chain
"main" > the currently checked-out branch, skipped when HEAD is detached or
when it is not among the scanned branch names > "master" > the
lexicographically first branch name; if no branches exist the default is
the literal string "main". -/
theorem claim9_default_branch_priority :
    ∀ (names : List String) (active : Option String),
      ("main" ∈ names → detect_default_branch names active = "main") ∧
      (∀ a, "main" ∉ names → active = some a → a ∈ names →
        detect_default_branch names active = a) ∧
      ("main" ∉ names → (∀ a, active = some a → a ∉ names) →
        "master" ∈ names → detect_default_branch names active = "master") ∧
      ("main" ∉ names → (∀ a, active = some a → a ∉ names) →
        "master" ∉ names → names ≠ [] →
        detect_default_branch names active ∈ names ∧
        ∀ b ∈ names, strLe (detect_default_branch names active) b) ∧
      (names = [] → detect_default_branch names active = "main") := by
  intro names active
  refine ⟨fun h => ?_, fun a hm ha hin => ?_, fun hm hsk hmas => ?_,
    fun hm hsk hmas hne => ?_, fun h => ?_⟩
  · unfold detect_default_branch
    rw [if_pos h]
  · unfold detect_default_branch
    rw [if_neg hm, ha]
    show (if a ∈ names then a else detect_default_tail names) = a
    rw [if_pos hin]
  · unfold detect_default_branch
    rw [if_neg hm]
    have htail : detect_default_tail names = "master" := by
      unfold detect_default_tail
      rw [if_pos hmas]
    cases active with
    | none => exact htail
    | some a =>
        show (if a ∈ names then a else detect_default_tail names) = "master"
        rw [if_neg (hsk a rfl)]
        exact htail
  · have htail : detect_default_branch names active =
        detect_default_tail names := by
      unfold detect_default_branch
      rw [if_neg hm]
      cases active with
      | none => rfl
      | some a =>
          show (if a ∈ names then a else detect_default_tail names) = _
          rw [if_neg (hsk a rfl)]
    rw [htail]
    unfold detect_default_tail
    rw [if_neg hmas]
    rcases hsort : names.insertionSort strLe with _ | ⟨x, t⟩
    · exfalso
      have := List.perm_insertionSort strLe names
      rw [hsort] at this
      exact hne this.symm.eq_nil
    · exact insertionSort_head_min hsort
  · subst h
    unfold detect_default_branch
    cases active with
    | none => rfl
    | some a =>
        show (if a ∈ ([] : List String) then a else detect_default_tail []) =
          "main"
        rw [if_neg (List.not_mem_nil a)]
        rfl

/-- Witness for C9 at concrete inputs: detached HEAD with no "main" and no
"master" picks the lexicographically first name; "main" always wins. -/
theorem claim9_witness :
    detect_default_branch ["beta", "alpha"] none ∈
      (["beta", "alpha"] : List String) ∧
    detect_default_branch ["zeta", "main"] (some "zeta") = "main" := by
  constructor
  · exact ((claim9_default_branch_priority ["beta", "alpha"] none).2.2.2.1
      (by decide) (fun a h => nomatch h) (by decide) (by decide)).1
  · exact (claim9_default_branch_priority ["zeta", "main"] (some "zeta")).1
      (by decide)

/-! ## Conventional-type and ticket-id extraction (`git.py`,
`CONVENTIONAL_RE` and `TICKET_RE`) -/

/-- ASCII model of the regex class `\s`. -/
def isSpaceChar (c : Char) : Bool :=
  c == ' ' || c == '\t' || c == '\n' || c == '\r' ||
    c == Char.ofNat 11 || c == Char.ofNat 12

/-- The alternation of `CONVENTIONAL_RE`, in regex order. -/
def CONVENTIONAL_TYPES : List String :=
  ["feat", "fix", "docs", "style", "refactor", "perf", "test", "build",
   "ci", "chore", "revert"]

/-- Tail of `CONVENTIONAL_RE` after an optional `!`: `:` followed by one
whitespace character. -/
def matchColonSpace (cs : List Char) : Bool :=
  match cs with
  | ':' :: c :: _ => isSpaceChar c
  | _ => false

/-- Tail of `CONVENTIONAL_RE` after the optional scope group: `!?:\s`. -/
def matchBangColon (cs : List Char) : Bool :=
  match cs with
  | '!' :: rest => matchColonSpace rest
  | _ => matchColonSpace cs

/-- Backtracking search for the closing parenthesis of the non-greedy scope
group `\(.*?\)`: close at the current `)` (and match `!?:\s` after it), or
extend the scope over any non-newline character. -/
def parenRest : List Char → Bool
  | [] => false
  | c :: rest =>
      (c == ')' && matchBangColon rest) || (c != '\n' && parenRest rest)

/-- Matches `(\(.*?\))?!?:\s` at the start of `cs`. -/
def matchConvTail (cs : List Char) : Bool :=
  (match cs with
   | '(' :: rest => parenRest rest
   | _ => false) || matchBangColon cs

/-- Model of `_parse_conventional_type`: the `CONVENTIONAL_RE` match
anchored at the start of the message, trying alternatives in regex order. -/
def parse_conventional_type (message : String) : Option String :=
  CONVENTIONAL_TYPES.find? (fun t =>
    leadsWith t.data message.data && matchConvTail (message.data.drop t.data.length))

example : parse_conventional_type "fix(parser)!: handle tabs" = some "fix" := by decide

example : parse_conventional_type "fixes a bug" = none := by decide

def isUpperCh (c : Char) : Bool := 'A' ≤ c && c ≤ 'Z'

def isDigitCh (c : Char) : Bool := '0' ≤ c && c ≤ '9'

def isUpperOrDigit (c : Char) : Bool := isUpperCh c || isDigitCh c

/-- Match of `TICKET_RE` (`[A-Z][A-Z0-9]+-\d+`) anchored at the current
position: the greedy runs are maximal, which is exact here because `-` is
in neither character class. -/
def ticketAt (cs : List Char) : Option (List Char) :=
  match cs with
  | [] => none
  | c :: rest =>
      if isUpperCh c then
        let run := rest.takeWhile isUpperOrDigit
        if run.isEmpty then none
        else
          match rest.dropWhile isUpperOrDigit with
          | '-' :: ds =>
              let digits := ds.takeWhile isDigitCh
              if digits.isEmpty then none
              else some (c :: run ++ '-' :: digits)
          | _ => none
      else none

/-- Leftmost `TICKET_RE` match, as in `re.search`. -/
def searchTicket : List Char → Option String
  | [] => none
  | c :: rest =>
      match ticketAt (c :: rest) with
      | some t => some ⟨t⟩
      | none => searchTicket rest

/-- Model of `_parse_ticket_id` on the full commit message. -/
def parse_ticket_id (message : String) : Option String :=
  searchTicket message.data

example : parse_ticket_id "fix: close ABC-123 and DEF-4" = some "ABC-123" := by decide

example : parse_ticket_id "no ticket here" = none := by decide

/-- Model of Python `str.strip()` (ASCII whitespace). -/
def stripChars (cs : List Char) : List Char :=
  ((cs.dropWhile isSpaceChar).reverse.dropWhile isSpaceChar).reverse

/-- Model of `message.strip().split("\n")[0]`. -/
def firstLineOf (s : String) : String :=
  ⟨(stripChars s.data).takeWhile (fun c => c != '\n')⟩

/-! ## Data model (`models.py`) -/

/-- A raw repository commit as surfaced by the repository interface
(GitPython): identifier, committer timestamp (UTC epoch seconds), author
name (empty when absent, as in `c.author.name or ""`), full message, and
parent identifiers. -/
structure RawCommit where
  sha : String
  timestamp : Int
  author : String
  message : String
  parents : List String
deriving DecidableEq

/-- The `Branch` dataclass. -/
structure Branch where
  name : String
  is_default : Bool
deriving DecidableEq

/-- The `Commit` dataclass, with exactly the thirteen fields `models.py`
declares.  Timestamps are epoch seconds; the code stores the equivalent
ISO-8601 UTC string, whose lexicographic order agrees with this numeric
order. -/
structure Commit where
  sha : String
  author : String
  timestamp : Int
  branch : String
  message : String
  parents : List String
  tags : List String
  conventional_type : Option String
  ticket_id : Option String
  insertions : Nat
  deletions : Nat
  files_changed : Nat
  category : String
deriving DecidableEq

/-- The `Merge` dataclass. -/
structure Merge where
  sha : String
  from_branch : String
  to_branch : String
  timestamp : Int
deriving DecidableEq

/-- The field names `models.Commit` declares. -/
def COMMIT_FIELDS_DECLARED : List String :=
  ["sha", "author", "timestamp", "branch", "message", "parents", "tags",
   "conventional_type", "ticket_id", "insertions", "deletions",
   "files_changed", "category"]

/-- The keyword arguments of the `Commit(...)` constructor call inside
`collect_git` (`git.py` lines 401-417). -/
def COMMIT_CTOR_KWARGS : List String :=
  ["sha", "author", "timestamp", "branch", "message", "parents", "tags",
   "conventional_type", "ticket_id", "insertions", "deletions",
   "files_changed", "category", "is_merge_commit", "is_squash"]

/-! ## The history walk (`git.py`, `collect_git`) -/

/-- One reference and the commits reachable from it, in traversal order
(the result of `repo.iter_commits(ref)`). -/
structure RefStream where
  name : String
  commits : List RawCommit

/-- The external inputs of the walk: the date-range configuration with the
library ISO parse, the active-branch state, and the three lookup tables
produced by the concurrent phases (`commit_to_branches`, `numstat`,
`tag_map`), each modelled as its `dict.get`. -/
structure CollectCtx where
  parseIso : String → Option Int
  start : String
  stop : String
  active : Option String
  membership : String → Option (List String)
  numstat : String → Option (Nat × Nat × Nat)
  tag_map : String → List String

/-- Model of `name[len("origin/"):] if name.startswith("origin/")`. -/
def stripOrigin (name : String) : String :=
  if leadsWith "origin/".data name.data then ⟨name.data.drop 7⟩ else name

/-- The scanned branch names: origin-prefix stripped, symbolic HEAD
excluded (set semantics are irrelevant here because the names are only
used through membership and minimum). -/
def branchNamesOf (refs : List RefStream) : List String :=
  (refs.map (fun r => stripOrigin r.name)).filter (fun n => n != "HEAD")

/-- The default branch `collect_git` computes. -/
def defaultBranchOf (ctx : CollectCtx) (refs : List RefStream) : String :=
  detect_default_branch (branchNamesOf refs) ctx.active

/-- First-occurrence deduplication (Python `set` iteration is modelled by
keeping the first occurrence; only membership matters downstream). -/
def dedupFirst (seen : List String) : List String → List String
  | [] => []
  | b :: rest =>
      if b ∈ seen then dedupFirst seen rest
      else b :: dedupFirst (b :: seen) rest

/-- The attributed branch of a commit: the branch set from the membership
map (default `{default}`), minus the default branch; the lexicographically
smallest remaining name, else the default branch.  Models lines 378-381 of
`git.py`. -/
def attributedBranch (membership : String → Option (List String))
    (default : String) (sha : String) : String :=
  let candidate := (membership sha).getD [default]
  let nonDefault := candidate.filter (fun b => b != default)
  match nonDefault.insertionSort strLe with
  | [] => default
  | b :: _ => b

/-- The `Commit` record built for one first-seen, in-range raw commit
(lines 383-417 of `git.py`, restricted to the thirteen fields the
dataclass declares; the call site also passes `is_merge_commit` and
`is_squash`, which the dataclass rejects — see `COMMIT_CTOR_KWARGS`). -/
def buildCommit (ctx : CollectCtx) (default : String) (c : RawCommit) :
    Commit :=
  let conv_type := parse_conventional_type c.message
  let message_line := firstLineOf c.message
  let is_merge := decide (2 ≤ c.parents.length)
  let numstat := (ctx.numstat c.sha).getD (0, 0, 0)
  { sha := c.sha
    author := c.author
    timestamp := c.timestamp
    branch := attributedBranch ctx.membership default c.sha
    message := message_line
    parents := c.parents
    tags := ctx.tag_map c.sha
    conventional_type := conv_type
    ticket_id := parse_ticket_id c.message
    insertions := numstat.1
    deletions := numstat.2.1
    files_changed := numstat.2.2
    category := classify_category message_line conv_type is_merge }

/-- The mutable state of the walk loop. -/
structure WalkState where
  seen : List String
  commits : List Commit
  merges : List Merge

/-- One iteration of the walk loop (lines 369-428 of `git.py`): skip seen
SHAs, record the SHA as seen, apply the date filter, then append the
finalized commit and, for parent count ≥ 2, the derived merge entry. -/
def processCommit (ctx : CollectCtx) (default : String) (st : WalkState)
    (c : RawCommit) : WalkState :=
  if c.sha ∈ st.seen then st
  else
    let seen := c.sha :: st.seen
    if in_date_range ctx.parseIso c.timestamp ctx.start ctx.stop then
      let commit := buildCommit ctx default c
      let merges :=
        if 2 ≤ c.parents.length then
          st.merges ++
            [{ sha := c.sha
               from_branch :=
                 if commit.branch ≠ default then commit.branch else "unknown"
               to_branch := default
               timestamp := c.timestamp }]
        else st.merges
      { seen := seen, commits := st.commits ++ [commit], merges := merges }
    else { st with seen := seen }

/-- Commit order used by the final `commits.sort(key=timestamp)`. -/
def commitTsLe (a b : Commit) : Prop := a.timestamp ≤ b.timestamp

instance : DecidableRel commitTsLe := fun a b => by
  unfold commitTsLe; infer_instance

instance : IsTotal Commit commitTsLe :=
  ⟨fun a b => Int.le_total a.timestamp b.timestamp⟩

instance : IsTrans Commit commitTsLe :=
  ⟨fun _ _ _ h1 h2 => le_trans h1 h2⟩

/-- Merge order used by the final `merges.sort(key=timestamp)`. -/
def mergeTsLe (a b : Merge) : Prop := a.timestamp ≤ b.timestamp

instance : DecidableRel mergeTsLe := fun a b => by
  unfold mergeTsLe; infer_instance

instance : IsTotal Merge mergeTsLe :=
  ⟨fun a b => Int.le_total a.timestamp b.timestamp⟩

instance : IsTrans Merge mergeTsLe :=
  ⟨fun _ _ _ h1 h2 => le_trans h1 h2⟩

/-- Model of `collect_git` (`git.py` lines 308-449): scan branch names,
pick the default branch, walk every reference stream deduplicating by SHA,
and sort the commit and merge lists by timestamp (Python sorts the ISO
strings, whose order is the numeric timestamp order). -/
def collect_git (ctx : CollectCtx) (refs : List RefStream) :
    List Branch × List Commit × List Merge :=
  let branch_names := branchNamesOf refs
  let default := defaultBranchOf ctx refs
  let branches := ((dedupFirst [] branch_names).insertionSort strLe).map
    (fun n => { name := n, is_default := n == default : Branch })
  let st := ((refs.map RefStream.commits).flatten).foldl
    (processCommit ctx default) ⟨[], [], []⟩
  (branches, st.commits.insertionSort commitTsLe,
    st.merges.insertionSort mergeTsLe)

@[simp] theorem buildCommit_sha (ctx : CollectCtx) (d : String)
    (c : RawCommit) : (buildCommit ctx d c).sha = c.sha := rfl

@[simp] theorem buildCommit_timestamp (ctx : CollectCtx) (d : String)
    (c : RawCommit) : (buildCommit ctx d c).timestamp = c.timestamp := rfl

@[simp] theorem buildCommit_parents (ctx : CollectCtx) (d : String)
    (c : RawCommit) : (buildCommit ctx d c).parents = c.parents := rfl

/-- The two invariants of the dedup walk behind claim C2: output SHAs are
pairwise distinct, and every recorded SHA has been marked seen. -/
def WalkInv (st : WalkState) : Prop :=
  (st.commits.map Commit.sha).Nodup ∧
  ∀ s ∈ st.commits.map Commit.sha, s ∈ st.seen

theorem processCommit_seen (ctx : CollectCtx) (d : String) (st : WalkState)
    (c : RawCommit) :
    (processCommit ctx d st c).seen = st.seen ∨
    (processCommit ctx d st c).seen = c.sha :: st.seen := by
  by_cases hmem : c.sha ∈ st.seen
  · simp only [processCommit, if_pos hmem]
    exact Or.inl trivial
  · simp only [processCommit, if_neg hmem]
    by_cases hrange : in_date_range ctx.parseIso c.timestamp ctx.start ctx.stop = true
    · rw [if_pos hrange]
      exact Or.inr rfl
    · rw [if_neg hrange]
      exact Or.inr rfl

theorem processCommit_commits_mono (ctx : CollectCtx) (d : String)
    (st : WalkState) (c : RawCommit) :
    ∀ s ∈ st.commits.map Commit.sha,
      s ∈ (processCommit ctx d st c).commits.map Commit.sha := by
  intro s hs
  by_cases hmem : c.sha ∈ st.seen
  · simp only [processCommit, if_pos hmem]
    exact hs
  · simp only [processCommit, if_neg hmem]
    by_cases hrange : in_date_range ctx.parseIso c.timestamp ctx.start ctx.stop = true
    · rw [if_pos hrange]
      simp only [List.map_append, List.mem_append]
      exact Or.inl hs
    · rw [if_neg hrange]
      exact hs

theorem walk_commits_mono (ctx : CollectCtx) (d : String) :
    ∀ (l : List RawCommit) (st : WalkState) (s : String),
      s ∈ st.commits.map Commit.sha →
      s ∈ ((l.foldl (processCommit ctx d) st).commits.map Commit.sha) := by
  intro l
  induction l with
  | nil => intro st s hs; exact hs
  | cons c t ih =>
      intro st s hs
      exact ih _ s (processCommit_commits_mono ctx d st c s hs)

theorem processCommit_inv (ctx : CollectCtx) (d : String) (st : WalkState)
    (c : RawCommit) (h : WalkInv st) : WalkInv (processCommit ctx d st c) := by
  obtain ⟨hnd, hsub⟩ := h
  by_cases hmem : c.sha ∈ st.seen
  · simp only [processCommit, if_pos hmem]
    exact ⟨hnd, hsub⟩
  · simp only [processCommit, if_neg hmem]
    by_cases hrange : in_date_range ctx.parseIso c.timestamp ctx.start ctx.stop = true
    · rw [if_pos hrange]
      constructor
      · simp only [List.map_append, List.map_cons, List.map_nil,
          buildCommit_sha]
        rw [List.nodup_append]
        refine ⟨hnd, List.nodup_singleton _, ?_⟩
        intro s hs hs2
        have : s = c.sha := by simpa using hs2
        subst this
        exact hmem (hsub _ hs)
      · intro s hs
        simp only [List.map_append, List.map_cons, List.map_nil,
          buildCommit_sha, List.mem_append, List.mem_singleton] at hs
        rcases hs with hs | rfl
        · exact List.mem_cons_of_mem _ (hsub s hs)
        · exact List.mem_cons_self _ _
    · rw [if_neg hrange]
      exact ⟨hnd, fun s hs => List.mem_cons_of_mem _ (hsub s hs)⟩

theorem walk_inv (ctx : CollectCtx) (d : String) :
    ∀ (l : List RawCommit) (st : WalkState), WalkInv st →
      WalkInv (l.foldl (processCommit ctx d) st) := by
  intro l
  induction l with
  | nil => intro st h; exact h
  | cons c t ih => intro st h; exact ih _ (processCommit_inv ctx d st c h)

theorem walk_complete (ctx : CollectCtx) (d : String) :
    ∀ (l : List RawCommit) (st : WalkState) (r : RawCommit),
      r ∈ l →
      (∀ r2 ∈ l, r2.sha = r.sha →
        in_date_range ctx.parseIso r2.timestamp ctx.start ctx.stop = true) →
      r.sha ∉ st.seen →
      r.sha ∈ ((l.foldl (processCommit ctx d) st).commits.map Commit.sha) := by
  intro l
  induction l with
  | nil => intro st r hr; cases hr
  | cons c t ih =>
      intro st r hr hall hseen
      simp only [List.foldl_cons]
      by_cases hcsha : c.sha = r.sha
      · have hcr : c.sha ∉ st.seen := by rw [hcsha]; exact hseen
        have hrange : in_date_range ctx.parseIso c.timestamp ctx.start
            ctx.stop = true :=
          hall c (List.mem_cons_self c t) hcsha
        have hmem : c.sha ∈ ((processCommit ctx d st c).commits.map
            Commit.sha) := by
          simp only [processCommit, if_neg hcr, if_pos hrange]
          simp
        rw [← hcsha]
        exact walk_commits_mono ctx d t _ _ hmem
      · have hrt : r ∈ t := by
          rcases List.mem_cons.mp hr with rfl | h
          · exact absurd rfl hcsha
          · exact h
        have hseen2 : r.sha ∉ (processCommit ctx d st c).seen := by
          rcases processCommit_seen ctx d st c with he | he <;> rw [he]
          · exact hseen
          · intro hc
            rcases List.mem_cons.mp hc with hc | hc
            · exact hcsha hc.symm
            · exact hseen hc
        exact ih _ r hrt
          (fun r2 h2 he => hall r2 (List.mem_cons_of_mem c h2) he) hseen2

/-- The relation claim C3 asserts between an emitted merge entry and its
commit. -/
def MergeRel (default : String) (c : Commit) (m : Merge) : Prop :=
  2 ≤ c.parents.length ∧ m.sha = c.sha ∧ m.timestamp = c.timestamp ∧
  m.to_branch = default ∧
  m.from_branch = if c.branch ≠ default then c.branch else "unknown"

/-- Both directions of the emitted-merge correspondence, as a walk
invariant. -/
def MergeInv (default : String) (st : WalkState) : Prop :=
  (∀ m ∈ st.merges, ∃ c ∈ st.commits, MergeRel default c m) ∧
  (∀ c ∈ st.commits, 2 ≤ c.parents.length →
    ∃ m ∈ st.merges, MergeRel default c m)

theorem processCommit_minv (ctx : CollectCtx) (d : String) (st : WalkState)
    (c : RawCommit) (h : MergeInv d st) :
    MergeInv d (processCommit ctx d st c) := by
  obtain ⟨h1, h2⟩ := h
  by_cases hmem : c.sha ∈ st.seen
  · simp only [processCommit, if_pos hmem]
    exact ⟨h1, h2⟩
  · simp only [processCommit, if_neg hmem]
    by_cases hrange : in_date_range ctx.parseIso c.timestamp ctx.start ctx.stop = true
    · rw [if_pos hrange]
      by_cases hpar : 2 ≤ c.parents.length
      · rw [if_pos hpar]
        constructor
        · intro m hm
          simp only [List.mem_append, List.mem_singleton] at hm
          rcases hm with hm | rfl
          · obtain ⟨c0, hc0, hrel⟩ := h1 m hm
            exact ⟨c0, List.mem_append_left _ hc0, hrel⟩
          · refine ⟨buildCommit ctx d c, List.mem_append_right _
              (List.mem_singleton_self _), ?_⟩
            refine ⟨by simpa using hpar, by simp, by simp, rfl, rfl⟩
        · intro c0 hc0 hp
          simp only [List.mem_append, List.mem_singleton] at hc0
          rcases hc0 with hc0 | rfl
          · obtain ⟨m, hm, hrel⟩ := h2 c0 hc0 hp
            exact ⟨m, List.mem_append_left _ hm, hrel⟩
          · refine ⟨_, List.mem_append_right _ (List.mem_singleton_self _), ?_⟩
            refine ⟨hp, by simp, by simp, rfl, rfl⟩
      · rw [if_neg hpar]
        constructor
        · intro m hm
          obtain ⟨c0, hc0, hrel⟩ := h1 m hm
          exact ⟨c0, List.mem_append_left _ hc0, hrel⟩
        · intro c0 hc0 hp
          simp only [List.mem_append, List.mem_singleton] at hc0
          rcases hc0 with hc0 | rfl
          · exact h2 c0 hc0 hp
          · exact absurd (by simpa using hp) hpar
    · rw [if_neg hrange]
      exact ⟨h1, h2⟩

theorem walk_minv (ctx : CollectCtx) (d : String) :
    ∀ (l : List RawCommit) (st : WalkState), MergeInv d st →
      MergeInv d (l.foldl (processCommit ctx d) st) := by
  intro l
  induction l with
  | nil => intro st h; exact h
  | cons c t ih => intro st h; exact ih _ (processCommit_minv ctx d st c h)

/-- C2: the claim is right but the code crashes before returning: the
`Commit(...)` call in `collect_git` passes the keyword arguments
`is_merge_commit` and `is_squash`, which `models.Commit` does not declare
(last conjunct).  With the call restricted to the declared fields, the walk
does produce SHA-unique, timestamp-sorted commit and merge lists, and every
reachable in-range commit appears (first conjunct). -/
theorem claim2_walk_dedup_sorted_and_ctor_mismatch :
    (∀ (ctx : CollectCtx) (refs : List RefStream),
      ((collect_git ctx refs).2.1.map Commit.sha).Nodup ∧
      List.Sorted commitTsLe (collect_git ctx refs).2.1 ∧
      List.Sorted mergeTsLe (collect_git ctx refs).2.2 ∧
      ∀ r ∈ (refs.map RefStream.commits).flatten,
        (∀ r2 ∈ (refs.map RefStream.commits).flatten, r2.sha = r.sha →
          in_date_range ctx.parseIso r2.timestamp ctx.start ctx.stop = true) →
        r.sha ∈ ((collect_git ctx refs).2.1.map Commit.sha)) ∧
    ¬ (∀ k ∈ COMMIT_CTOR_KWARGS, k ∈ COMMIT_FIELDS_DECLARED) := by
  constructor
  · intro ctx refs
    have hinv := walk_inv ctx (defaultBranchOf ctx refs)
      ((refs.map RefStream.commits).flatten) ⟨[], [], []⟩
      ⟨List.nodup_nil, by intro s hs; cases hs⟩
    have hcperm := List.perm_insertionSort commitTsLe
      (((refs.map RefStream.commits).flatten).foldl
        (processCommit ctx (defaultBranchOf ctx refs)) ⟨[], [], []⟩).commits
    refine ⟨?_, ?_, ?_, ?_⟩
    · exact (List.Perm.nodup_iff (hcperm.map Commit.sha)).mpr hinv.1
    · exact List.sorted_insertionSort commitTsLe _
    · exact List.sorted_insertionSort mergeTsLe _
    · intro r hr hall
      have hpre := walk_complete ctx (defaultBranchOf ctx refs)
        ((refs.map RefStream.commits).flatten) ⟨[], [], []⟩ r hr hall
        (by intro hc; cases hc)
      exact (List.Perm.mem_iff (hcperm.map Commit.sha)).mpr hpre
  · intro h
    have := h "is_merge_commit" (by decide)
    exact absurd this (by decide)

/-- C3: with the constructor slip fixed (see C2), a merge entry is emitted
for a commit iff its parent count is at least 2, and it carries the
commit's SHA and timestamp, `to_branch` the default branch, and
`from_branch` the attributed branch or "unknown" when that branch is the
default.  The last conjunct again records the constructor mismatch that
makes the code crash before returning. -/
theorem claim3_merge_iff_two_parents_and_ctor_mismatch :
    (∀ (ctx : CollectCtx) (refs : List RefStream),
      (∀ m ∈ (collect_git ctx refs).2.2,
        ∃ c ∈ (collect_git ctx refs).2.1,
          MergeRel (defaultBranchOf ctx refs) c m) ∧
      (∀ c ∈ (collect_git ctx refs).2.1, 2 ≤ c.parents.length →
        ∃ m ∈ (collect_git ctx refs).2.2,
          MergeRel (defaultBranchOf ctx refs) c m)) ∧
    ¬ (∀ k ∈ COMMIT_CTOR_KWARGS, k ∈ COMMIT_FIELDS_DECLARED) := by
  constructor
  · intro ctx refs
    have hminv := walk_minv ctx (defaultBranchOf ctx refs)
      ((refs.map RefStream.commits).flatten) ⟨[], [], []⟩
      ⟨(fun m hm => by cases hm), (fun c hc => by cases hc)⟩
    have hcperm := List.perm_insertionSort commitTsLe
      (((refs.map RefStream.commits).flatten).foldl
        (processCommit ctx (defaultBranchOf ctx refs)) ⟨[], [], []⟩).commits
    have hmperm := List.perm_insertionSort mergeTsLe
      (((refs.map RefStream.commits).flatten).foldl
        (processCommit ctx (defaultBranchOf ctx refs)) ⟨[], [], []⟩).merges
    constructor
    · intro m hm
      obtain ⟨c, hc, hrel⟩ := hminv.1 m (hmperm.mem_iff.mp hm)
      exact ⟨c, hcperm.mem_iff.mpr hc, hrel⟩
    · intro c hc hp
      obtain ⟨m, hm, hrel⟩ := hminv.2 c (hcperm.mem_iff.mp hc) hp
      exact ⟨m, hmperm.mem_iff.mpr hm, hrel⟩
  · intro h
    have := h "is_squash" (by decide)
    exact absurd this (by decide)

/-- Concrete inputs for the walk witnesses: two references sharing one
commit, one merge commit, and an unbounded date range. -/
def ctx0 : CollectCtx :=
  { parseIso := fun _ => none
    start := ""
    stop := ""
    active := none
    membership := fun _ => none
    numstat := fun _ => none
    tag_map := fun _ => [] }

def rawA : RawCommit :=
  { sha := "aaa", timestamp := 100, author := "x", message := "fix: a",
    parents := [] }

def rawB : RawCommit :=
  { sha := "bbb", timestamp := 50, author := "y",
    message := "Merge branch dev", parents := ["aaa", "ccc"] }

def refs0 : List RefStream :=
  [⟨"main", [rawA, rawB]⟩, ⟨"dev", [rawA]⟩]

/-- Witness for C2 at a concrete input: the commit reachable from both
references appears (once) in the output SHA list. -/
theorem claim2_witness :
    "aaa" ∈ ((collect_git ctx0 refs0).2.1.map Commit.sha) := by
  have h := claim2_walk_dedup_sorted_and_ctor_mismatch.1 ctx0 refs0
  exact h.2.2.2 rawA (by decide) (by decide)

/-- Witness for C3 at a concrete input: the two-parent commit yields a
merge entry related to it. -/
theorem claim3_witness :
    ∃ m ∈ (collect_git ctx0 refs0).2.2,
      MergeRel (defaultBranchOf ctx0 refs0)
        (buildCommit ctx0 (defaultBranchOf ctx0 refs0) rawB) m := by
  have h := claim3_merge_iff_two_parents_and_ctor_mismatch.1 ctx0 refs0
  exact h.2 (buildCommit ctx0 (defaultBranchOf ctx0 refs0) rawB)
    (by decide) (by decide)

/-! ## Numerics of `change_flow.py` (`_median`, `_percentile`).  Python
float arithmetic on day quantities is modelled exactly by `ℚ`. -/

/-- Seconds-to-days conversion `total_seconds() / 86400.0`. -/
def daysOf (sec : Int) : ℚ := (sec : ℚ) / 86400

/-- The sorting step `sorted(values)`. -/
def sortValues (values : List ℚ) : List ℚ :=
  values.insertionSort (fun a b => a ≤ b)

/-- Model of `_median`. -/
def median (values : List ℚ) : ℚ :=
  if values = [] then 0
  else
    let s := sortValues values
    let n := s.length
    if n % 2 = 1 then s.getD (n / 2) 0
    else (s.getD (n / 2 - 1) 0 + s.getD (n / 2) 0) / 2

/-- Python `int(...)` truncation toward zero on a rational. -/
def intTrunc (q : ℚ) : ℤ := if q < 0 then ⌈q⌉ else ⌊q⌋

/-- Model of `_percentile`: linear interpolation between the order
statistics at rank `p/100 * (n-1)`. -/
def percentile (values : List ℚ) (p : ℚ) : ℚ :=
  if values = [] then 0
  else
    let s := sortValues values
    let idx := p / 100 * ((s.length : ℚ) - 1)
    let lo := intTrunc idx
    let hi := min (lo.toNat + 1) (s.length - 1)
    let frac := idx - (lo : ℚ)
    s.getD lo.toNat 0 * (1 - frac) + s.getD hi 0 * frac

/-- C7: `percentile(values, 50)` agrees with `_median` (the standard
median: middle element for odd length, mean of the two middle elements for
even length, over the sorted list) on every list, and `percentile([], p)`
is 0 for every p. -/
theorem claim7_percentile_median :
    (∀ values : List ℚ, percentile values 50 = median values) ∧
    (∀ p : ℚ, percentile [] p = 0) := by
  constructor
  · intro values
    by_cases hne : values = []
    · subst hne; rfl
    · unfold percentile median
      rw [if_neg hne, if_neg hne]
      have hlen : (sortValues values).length ≠ 0 := by
        unfold sortValues
        rw [(List.perm_insertionSort _ values).length_eq]
        exact fun h => hne (List.eq_nil_of_length_eq_zero h)
      generalize hs : sortValues values = s at hlen
      simp only []
      rcases Nat.even_or_odd s.length with ⟨m, hm⟩ | ⟨m, hm⟩
      · -- even length m + m with 1 ≤ m
        have hm1 : 1 ≤ m := by omega
        have hm1q : (1 : ℚ) ≤ (m : ℚ) := by exact_mod_cast hm1
        have hidx : (50 : ℚ) / 100 * ((s.length : ℚ) - 1) =
            (((m : ℤ) - 1 : ℤ) : ℚ) + 1 / 2 := by
          rw [hm]; push_cast; ring
        have h12 : ⌊(1 / 2 : ℚ)⌋ = 0 := by
          rw [Int.floor_eq_zero_iff]
          constructor <;> norm_num
        have hfl : intTrunc ((50 : ℚ) / 100 * ((s.length : ℚ) - 1)) =
            (m : ℤ) - 1 := by
          unfold intTrunc
          rw [if_neg (by rw [hidx]; push_cast; linarith), hidx,
            Int.floor_int_add, h12, add_zero]
        rw [hfl]
        have htn : ((m : ℤ) - 1).toNat = m - 1 := by omega
        have hfrac : (50 : ℚ) / 100 * ((s.length : ℚ) - 1) -
            (((m : ℤ) - 1 : ℤ) : ℚ) = 1 / 2 := by
          rw [hidx]; ring
        rw [htn, hfrac]
        have hmin : min (m - 1 + 1) (s.length - 1) = m := by omega
        rw [hmin]
        have hpar : ¬ s.length % 2 = 1 := by omega
        rw [if_neg hpar]
        have hd2 : s.length / 2 = m := by omega
        rw [hd2]
        ring
      · -- odd length 2 * m + 1
        have hidx : (50 : ℚ) / 100 * ((s.length : ℚ) - 1) = (m : ℚ) := by
          rw [hm]; push_cast; ring
        have hfl : intTrunc ((50 : ℚ) / 100 * ((s.length : ℚ) - 1)) =
            (m : ℤ) := by
          unfold intTrunc
          rw [if_neg (by rw [hidx]; exact not_lt.mpr (Nat.cast_nonneg m)), hidx]
          exact_mod_cast Int.floor_natCast m
        rw [hfl]
        have htn : ((m : ℤ)).toNat = m := by omega
        have hfrac : (50 : ℚ) / 100 * ((s.length : ℚ) - 1) -
            ((m : ℤ) : ℚ) = 0 := by
          rw [hidx]; push_cast; ring
        rw [htn, hfrac]
        have hpar : s.length % 2 = 1 := by omega
        rw [if_pos hpar]
        have hd2 : s.length / 2 = m := by omega
        rw [hd2]
        ring
  · intro p
    simp [percentile]

/-! ## Latest merge per source branch (`change_flow.py` lines 72-78).
`merge_by_from_branch` keeps, for each `from_branch`, the merge with the
strictly greatest timestamp; the dict is modelled per key. -/

/-- One step of the `merge_by_from_branch` construction, specialized to the
key `b`. -/
def latestStep (b : String) (acc : Option Merge) (m : Merge) : Option Merge :=
  if m.from_branch = b then
    match acc with
    | none => some m
    | some prev => if prev.timestamp < m.timestamp then some m else acc
  else acc

/-- `merge_by_from_branch.get(b)` after processing all merges. -/
def latestMergeFor (merges : List Merge) (b : String) : Option Merge :=
  merges.foldl (latestStep b) none

theorem latestMergeFor_aux :
    ∀ (l : List Merge) (b : String) (acc : Option Merge) (mm : Merge),
      l.foldl (latestStep b) acc = some mm →
      ((mm ∈ l ∧ mm.from_branch = b) ∨ acc = some mm) ∧
      (∀ m ∈ l, m.from_branch = b → m.timestamp ≤ mm.timestamp) ∧
      (∀ prev, acc = some prev → prev.timestamp ≤ mm.timestamp) := by
  intro l
  induction l with
  | nil =>
      intro b acc mm h
      rw [List.foldl_nil] at h
      refine ⟨Or.inr h, fun m hm => absurd hm (List.not_mem_nil m), ?_⟩
      intro prev hprev
      rw [hprev] at h
      injection h with h2
      rw [h2]
  | cons m0 t ih =>
      intro b acc mm h
      simp only [List.foldl_cons] at h
      obtain ⟨h1, h2, h3⟩ := ih b (latestStep b acc m0) mm h
      have hstep : ∀ prev, acc = some prev →
          prev.timestamp ≤ mm.timestamp := by
        intro prev hprev
        by_cases hb : m0.from_branch = b
        · by_cases hlt : prev.timestamp < m0.timestamp
          · have := h3 m0 (by
              simp only [latestStep, if_pos hb, hprev, if_pos hlt])
            omega
          · exact h3 prev (by
              simp only [latestStep, if_pos hb, hprev, if_neg hlt])
        · exact h3 prev (by simp only [latestStep, if_neg hb]; exact hprev)
      have hm0 : m0.from_branch = b → m0.timestamp ≤ mm.timestamp := by
        intro hb
        rcases hacc : acc with _ | prev2
        · exact h3 m0 (by simp only [latestStep, if_pos hb, hacc])
        · by_cases hlt : prev2.timestamp < m0.timestamp
          · exact h3 m0 (by simp only [latestStep, if_pos hb, hacc, if_pos hlt])
          · have := h3 prev2 (by
              simp only [latestStep, if_pos hb, hacc, if_neg hlt])
            omega
      refine ⟨?_, ?_, hstep⟩
      · rcases h1 with ⟨hmem, hfrom⟩ | hacc2
        · exact Or.inl ⟨List.mem_cons_of_mem m0 hmem, hfrom⟩
        · by_cases hb : m0.from_branch = b
          · rcases hacc : acc with _ | prev2
            · rw [hacc] at hacc2
              simp only [latestStep, if_pos hb] at hacc2
              injection hacc2 with he
              exact Or.inl ⟨by rw [← he]; exact List.mem_cons_self m0 t,
                by rw [← he]; exact hb⟩
            · rw [hacc] at hacc2
              simp only [latestStep, if_pos hb] at hacc2
              by_cases hlt : prev2.timestamp < m0.timestamp
              · rw [if_pos hlt] at hacc2
                injection hacc2 with he
                exact Or.inl ⟨by rw [← he]; exact List.mem_cons_self m0 t,
                  by rw [← he]; exact hb⟩
              · rw [if_neg hlt] at hacc2
                exact Or.inr (hacc ▸ hacc2)
          · rw [show latestStep b acc m0 = acc by
              simp only [latestStep, if_neg hb]] at hacc2
            exact Or.inr hacc2
      · intro m hm hfrom
        rcases List.mem_cons.mp hm with rfl | hmt
        · exact hm0 hfrom
        · exact h2 m hmt hfrom

theorem latestMergeFor_none :
    ∀ (l : List Merge) (b : String) (acc : Option Merge),
      l.foldl (latestStep b) acc = none →
      acc = none ∧ ∀ m ∈ l, m.from_branch ≠ b := by
  intro l
  induction l with
  | nil =>
      intro b acc h
      exact ⟨h, fun m hm => absurd hm (List.not_mem_nil m)⟩
  | cons m0 t ih =>
      intro b acc h
      simp only [List.foldl_cons] at h
      obtain ⟨hacc, ht⟩ := ih b (latestStep b acc m0) h
      by_cases hb : m0.from_branch = b
      · exfalso
        rcases h2 : acc with _ | prev
        · rw [h2] at hacc
          simp only [latestStep, if_pos hb] at hacc
          cases hacc
        · rw [h2] at hacc
          simp only [latestStep, if_pos hb] at hacc
          by_cases hlt : prev.timestamp < m0.timestamp
          · rw [if_pos hlt] at hacc; cases hacc
          · rw [if_neg hlt] at hacc; cases hacc
      · refine ⟨?_, ?_⟩
        · rw [show latestStep b acc m0 = acc by
            simp only [latestStep, if_neg hb]] at hacc
          exact hacc
        · intro m hm
          rcases List.mem_cons.mp hm with rfl | hmt
          · exact hb
          · exact ht m hmt

/-- Characterization of `merge_by_from_branch[b]`: a present entry is the
merge from `b` with the greatest timestamp; an absent entry means no merge
has `b` as its source. -/
theorem latestMergeFor_spec (merges : List Merge) (b : String) :
    (∀ mm, latestMergeFor merges b = some mm →
      mm ∈ merges ∧ mm.from_branch = b ∧
      ∀ m ∈ merges, m.from_branch = b → m.timestamp ≤ mm.timestamp) ∧
    (latestMergeFor merges b = none →
      ∀ m ∈ merges, m.from_branch ≠ b) := by
  constructor
  · intro mm h
    obtain ⟨h1, h2, _⟩ := latestMergeFor_aux merges b none mm h
    rcases h1 with ⟨hmem, hfrom⟩ | hc
    · exact ⟨hmem, hfrom, h2⟩
    · cases hc
  · intro h
    exact (latestMergeFor_none merges b none h).2

/-! ## Rounding (`round(x, k)` on exact rationals; Python rounds half to
even) -/

def round_half_even (q : ℚ) : ℤ :=
  if q - ⌊q⌋ < 1 / 2 then ⌊q⌋
  else if 1 / 2 < q - ⌊q⌋ then ⌊q⌋ + 1
  else if 2 ∣ ⌊q⌋ then ⌊q⌋ else ⌊q⌋ + 1

/-- Model of `round(x, 1)`. -/
def round1 (q : ℚ) : ℚ := (round_half_even (q * 10) : ℚ) / 10

/-- Model of `round(x, 2)`. -/
def round2 (q : ℚ) : ℚ := (round_half_even (q * 100) : ℚ) / 100

/-! ## Branch lifespans (`change_flow.py` lines 122-159) -/

/-- The keys of `non_default_commits` in insertion order. -/
def nonDefaultBranchNames (commits : List Commit) (default : String) :
    List String :=
  dedupFirst [] ((commits.filter (fun c => c.branch != default)).map
    Commit.branch)

/-- The commit group of one non-default branch. -/
def branchCommits (commits : List Commit) (default b : String) :
    List Commit :=
  (commits.filter (fun c => c.branch != default)).filter
    (fun c => c.branch == b)

/-- Python `min` over a non-empty timestamp list (0 on the unreachable
empty case). -/
def minTs : List Int → Int
  | [] => 0
  | t :: rest => rest.foldl min t

/-- Python `max` over a non-empty timestamp list. -/
def maxTs : List Int → Int
  | [] => 0
  | t :: rest => rest.foldl max t

/-- The `BranchLifespan` dataclass; `first_commit`/`last_commit` are kept
as epoch seconds (the code stores their ISO strings). -/
structure BranchLifespan where
  branch : String
  first_commit : Int
  last_commit : Int
  lifespan_days : ℚ
  merged : Bool
  commit_count : Nat
deriving DecidableEq

/-- One iteration of the branch-lifespan loop: the stored entry and the
raw (unrounded) lifespan value appended to `all_lifespans`.  A merged
branch uses the latest merge timestamp as end point with no lower clamp;
an unmerged branch uses its own last commit. -/
def branchLifespanOf (merges : List Merge) (commits : List Commit)
    (default b : String) : BranchLifespan × ℚ :=
  let bc := branchCommits commits default b
  let first := minTs (bc.map Commit.timestamp)
  let last := maxTs (bc.map Commit.timestamp)
  match latestMergeFor merges b with
  | some mm =>
      (⟨b, first, last, round1 (daysOf (mm.timestamp - first)), true,
        bc.length⟩, daysOf (mm.timestamp - first))
  | none =>
      (⟨b, first, last, round1 (daysOf (last - first)), false,
        bc.length⟩, daysOf (last - first))

/-- Sort key of `branch_lifespans.sort(key=first_commit)`. -/
def lifespanOrder (a b : BranchLifespan) : Prop :=
  a.first_commit ≤ b.first_commit

instance : DecidableRel lifespanOrder := fun a b => by
  unfold lifespanOrder; infer_instance

instance : IsTotal BranchLifespan lifespanOrder :=
  ⟨fun a b => Int.le_total a.first_commit b.first_commit⟩

instance : IsTrans BranchLifespan lifespanOrder :=
  ⟨fun _ _ _ h1 h2 => le_trans h1 h2⟩

/-- The reported `branch_lifespans` list, sorted by first-commit time. -/
def branch_lifespans (commits : List Commit) (merges : List Merge)
    (default : String) : List BranchLifespan :=
  ((nonDefaultBranchNames commits default).map
    (fun b => (branchLifespanOf merges commits default b).1)).insertionSort
    lifespanOrder

/-- The pooled raw lifespan values (`all_lifespans`), used for the median
and the longest-lifespan aggregate. -/
def all_lifespans (commits : List Commit) (merges : List Merge)
    (default : String) : List ℚ :=
  (nonDefaultBranchNames commits default).map
    (fun b => (branchLifespanOf merges commits default b).2)

/-! ## Commit-to-merge latency (`change_flow.py` lines 229-265) -/

/-- The `CommitMergeLatencyEntry` dataclass (`commit_date` as epoch
seconds, `days_to_merge` rounded to two decimals, `None` when the branch
was never merged). -/
structure CommitMergeLatencyEntry where
  sha : String
  commit_date : Int
  days_to_merge : Option ℚ
  lines_changed : Nat
  category : String
deriving DecidableEq

/-- The per-commit latency entries. -/
def commit_merge_latency (commits : List Commit) (merges : List Merge)
    (default : String) : List CommitMergeLatencyEntry :=
  (commits.filter (fun c => c.branch != default)).map (fun c =>
    match latestMergeFor merges c.branch with
    | some mm =>
        let days := daysOf (mm.timestamp - c.timestamp)
        ⟨c.sha, c.timestamp, some (round2 (if days < 0 then 0 else days)),
          c.insertions + c.deletions, c.category⟩
    | none => ⟨c.sha, c.timestamp, none, c.insertions + c.deletions,
        c.category⟩)

/-- The pooled latency values (`merge_latencies`), clamped at zero. -/
def merge_latencies (commits : List Commit) (merges : List Merge)
    (default : String) : List ℚ :=
  (commits.filter (fun c => c.branch != default)).filterMap (fun c =>
    match latestMergeFor merges c.branch with
    | some mm =>
        let days := daysOf (mm.timestamp - c.timestamp)
        some (if days < 0 then 0 else days)
    | none => none)

/-- C10: for a non-default branch with at least one recorded merge, the
lifespan is (latest merge timestamp − first commit timestamp) in days with
no lower clamp — the raw value is negative exactly when that merge
precedes the branch's first commit, and the stored `lifespan_days` is just
its 1-decimal rounding — whereas every pooled commit-to-merge latency
value is clamped to be non-negative. -/
theorem claim10_lifespan_unclamped_vs_latency_clamped :
    ∀ (commits : List Commit) (merges : List Merge) (default b : String)
      (mm : Merge),
      b ∈ nonDefaultBranchNames commits default →
      latestMergeFor merges b = some mm →
      (mm ∈ merges ∧ mm.from_branch = b ∧
        ∀ m ∈ merges, m.from_branch = b → m.timestamp ≤ mm.timestamp) ∧
      (∃ e ∈ branch_lifespans commits merges default,
        e.branch = b ∧ e.merged = true ∧
        e.lifespan_days = round1 (daysOf (mm.timestamp -
          minTs ((branchCommits commits default b).map Commit.timestamp)))) ∧
      ((branchLifespanOf merges commits default b).2 =
        daysOf (mm.timestamp -
          minTs ((branchCommits commits default b).map Commit.timestamp)) ∧
        ((branchLifespanOf merges commits default b).2 < 0 ↔
          mm.timestamp <
            minTs ((branchCommits commits default b).map Commit.timestamp))) ∧
      (∀ v ∈ merge_latencies commits merges default, 0 ≤ v) := by
  intro commits merges default b mm hb hmm
  have hspec := (latestMergeFor_spec merges b).1 mm hmm
  have hlf : (branchLifespanOf merges commits default b).2 =
      daysOf (mm.timestamp -
        minTs ((branchCommits commits default b).map Commit.timestamp)) := by
    simp only [branchLifespanOf, hmm]
  refine ⟨hspec, ?_, ⟨hlf, ?_⟩, ?_⟩
  · refine ⟨(branchLifespanOf merges commits default b).1, ?_, ?_, ?_, ?_⟩
    · unfold branch_lifespans
      exact (List.perm_insertionSort lifespanOrder _).mem_iff.mpr
        (List.mem_map_of_mem _ hb)
    · simp only [branchLifespanOf, hmm]
    · simp only [branchLifespanOf, hmm]
    · simp only [branchLifespanOf, hmm]
  · rw [hlf]
    unfold daysOf
    rw [div_lt_iff₀ (by norm_num : (0 : ℚ) < 86400), zero_mul]
    constructor
    · intro h
      have := Int.cast_lt_zero.mp h
      omega
    · intro h
      have : (mm.timestamp -
          minTs ((branchCommits commits default b).map Commit.timestamp)) <
          (0 : ℤ) := by omega
      exact_mod_cast Int.cast_lt_zero.mpr this
  · intro v hv
    obtain ⟨c, _, hfc⟩ := List.mem_filterMap.mp hv
    rcases hml : latestMergeFor merges c.branch with _ | mm2 <;>
      rw [hml] at hfc
    · cases hfc
    · simp only [] at hfc
      injection hfc with he
      subst he
      split_ifs with h
      · exact le_refl 0
      · exact le_of_not_lt h

/-- Concrete input for the C10 witness: one commit on branch "feat-x" at
day 10, whose branch was merged at day 2 (out-of-order history). -/
def wCommit10 : Commit :=
  { sha := "c1", author := "", timestamp := 864000, branch := "feat-x",
    message := "", parents := [], tags := [], conventional_type := none,
    ticket_id := none, insertions := 3, deletions := 1, files_changed := 1,
    category := "other" }

def wMerge10 : Merge :=
  { sha := "m1", from_branch := "feat-x", to_branch := "main",
    timestamp := 172800 }

/-- Witness for C10: at the concrete input the raw lifespan is negative
iff the merge precedes the first commit (which it does). -/
theorem claim10_witness :
    (branchLifespanOf [wMerge10] [wCommit10] "main" "feat-x").2 =
      daysOf (wMerge10.timestamp -
        minTs ((branchCommits [wCommit10] "main" "feat-x").map
          Commit.timestamp)) ∧
    ((branchLifespanOf [wMerge10] [wCommit10] "main" "feat-x").2 < 0 ↔
      wMerge10.timestamp <
        minTs ((branchCommits [wCommit10] "main" "feat-x").map
          Commit.timestamp)) := by
  exact (claim10_lifespan_unclamped_vs_latency_clamped [wCommit10]
    [wMerge10] "main" "feat-x" wMerge10 (by decide) (by decide)).2.2.1

/-! ## Work disposition (`change_flow.py` lines 310-348).  The final
conversion of `segment_agg` into sorted `WorkDispositionSegment` records is
presentation only and not modelled; the six counters and the segment
dictionary are. -/

/-- The accumulators of the work-disposition loop; `segments` models the
`segment_agg` defaultdict as an insertion-ordered association list. -/
structure WDState where
  fast_merged_lines : Nat
  slow_merged_lines : Nat
  unmerged_lines : Nat
  fast_merged_commits : Nat
  slow_merged_commits : Nat
  unmerged_commits : Nat
  segments : List ((String × String) × (Nat × Nat))

/-- `segment_agg[key] = (prev_lines + lines, prev_count + 1)` with default
`(0, 0)`. -/
def segUpdate : List ((String × String) × (Nat × Nat)) → String × String →
    Nat → List ((String × String) × (Nat × Nat))
  | [], key, lines => [(key, (lines, 1))]
  | (k, v) :: rest, key, lines =>
      if k = key then (k, (v.1 + lines, v.2 + 1)) :: rest
      else (k, v) :: segUpdate rest key lines

/-- One iteration of the work-disposition loop: skip default-branch
commits; classify the commit's branch as fast (merged within 7 days), slow
(merged later) or unmerged, and add its changed-line count and one commit
to that bucket. -/
def wdStep (merges : List Merge) (default : String) (st : WDState)
    (c : Commit) : WDState :=
  if c.branch = default then st
  else
    let lines := c.insertions + c.deletions
    match latestMergeFor merges c.branch with
    | some mm =>
        if daysOf (mm.timestamp - c.timestamp) ≤ 7 then
          { st with fast_merged_lines := st.fast_merged_lines + lines,
                    fast_merged_commits := st.fast_merged_commits + 1,
                    segments := segUpdate st.segments (c.category, "fast")
                      lines }
        else
          { st with slow_merged_lines := st.slow_merged_lines + lines,
                    slow_merged_commits := st.slow_merged_commits + 1,
                    segments := segUpdate st.segments (c.category, "slow")
                      lines }
    | none =>
        { st with unmerged_lines := st.unmerged_lines + lines,
                  unmerged_commits := st.unmerged_commits + 1,
                  segments := segUpdate st.segments (c.category, "unmerged")
                    lines }

/-- The work-disposition fold over the commit list. -/
def work_disposition (commits : List Commit) (merges : List Merge)
    (default : String) : WDState :=
  commits.foldl (wdStep merges default) ⟨0, 0, 0, 0, 0, 0, []⟩

theorem wdStep_total (merges : List Merge) (default : String)
    (st : WDState) (c : Commit) :
    (wdStep merges default st c).fast_merged_lines +
    (wdStep merges default st c).slow_merged_lines +
    (wdStep merges default st c).unmerged_lines =
    st.fast_merged_lines + st.slow_merged_lines + st.unmerged_lines +
    (if c.branch ≠ default then c.insertions + c.deletions else 0) := by
  by_cases hb : c.branch = default
  · simp [wdStep, hb]
  · rw [if_pos hb]
    simp only [wdStep, if_neg hb]
    rcases hml : latestMergeFor merges c.branch with _ | mm
    · dsimp only
      omega
    · dsimp only
      split_ifs <;> dsimp only <;> omega

theorem wd_sum_aux (merges : List Merge) (default : String) :
    ∀ (l : List Commit) (st : WDState),
      (l.foldl (wdStep merges default) st).fast_merged_lines +
      (l.foldl (wdStep merges default) st).slow_merged_lines +
      (l.foldl (wdStep merges default) st).unmerged_lines =
      st.fast_merged_lines + st.slow_merged_lines + st.unmerged_lines +
      ((l.filter (fun c => c.branch != default)).map
        (fun c => c.insertions + c.deletions)).sum := by
  intro l
  induction l with
  | nil => intro st; simp
  | cons c t ih =>
      intro st
      simp only [List.foldl_cons]
      rw [ih, wdStep_total]
      by_cases hb : c.branch = default
      · rw [List.filter_cons_of_neg (by simp [hb]), if_neg (by simp [hb])]
        omega
      · rw [List.filter_cons_of_pos (by simp [hb]), if_pos hb]
        simp only [List.map_cons, List.sum_cons]
        omega

/-- C5: fast + slow + unmerged changed-line counters equal the total
changed-line count (insertions + deletions) over all commits whose
attributed branch is not the default branch: every non-default-branch
commit lands in exactly one speed bucket. -/
theorem claim5_work_disposition_sum :
    ∀ (commits : List Commit) (merges : List Merge) (default : String),
      (work_disposition commits merges default).fast_merged_lines +
      (work_disposition commits merges default).slow_merged_lines +
      (work_disposition commits merges default).unmerged_lines =
      ((commits.filter (fun c => c.branch != default)).map
        (fun c => c.insertions + c.deletions)).sum := by
  intro commits merges default
  unfold work_disposition
  rw [wd_sum_aux]
  simp

/-! ## Release intervals (`change_flow.py` lines 80-84 and 267-298) -/

/-- Python tuple comparison on `(timestamp, tag)` used by
`sorted((ts, tag) for ...)`. -/
def tagTupleLe (a b : Int × String) : Prop :=
  a.1 < b.1 ∨ (a.1 = b.1 ∧ strLe a.2 b.2)

instance : DecidableRel tagTupleLe := fun a b => by
  unfold tagTupleLe strLe; infer_instance

instance : IsTotal (Int × String) tagTupleLe := by
  constructor
  intro a b
  rcases lt_trichotomy a.1 b.1 with h | h | h
  · exact Or.inl (Or.inl h)
  · rcases lexLe_total a.2.data b.2.data with ht | ht
    · exact Or.inl (Or.inr ⟨h, ht⟩)
    · exact Or.inr (Or.inr ⟨h.symm, ht⟩)
  · exact Or.inr (Or.inl h)

instance : IsTrans (Int × String) tagTupleLe := by
  constructor
  intro a b c h1 h2
  rcases h1 with h1 | ⟨he1, hs1⟩
  · rcases h2 with h2 | ⟨he2, hs2⟩
    · exact Or.inl (h1.trans h2)
    · exact Or.inl (he2 ▸ h1)
  · rcases h2 with h2 | ⟨he2, hs2⟩
    · exact Or.inl (he1 ▸ h2)
    · exact Or.inr ⟨he1.trans he2, lexLe_trans hs1 hs2⟩

/-- The sorted `(timestamp, first tag)` pairs of all tagged commits. -/
def taggedCommits (commits : List Commit) : List (Int × String) :=
  ((commits.filter (fun c => !c.tags.isEmpty)).map
    (fun c => (c.timestamp, c.tags.headD ""))).insertionSort tagTupleLe

/-- Differences of consecutive timestamps (in seconds). -/
def consecDiffs : List (Int × String) → List Int
  | a :: b :: rest => (b.1 - a.1) :: consecDiffs (b :: rest)
  | _ => []

/-- The pooled `interval_values` (day differences of consecutive tagged
commits). -/
def release_interval_values (commits : List Commit) : List ℚ :=
  (consecDiffs (taggedCommits commits)).map daysOf

/-- The `HistogramBin` dataclass. -/
structure HistogramBin where
  label : String
  min_val : ℚ
  max_val : ℚ
  count : Nat
deriving DecidableEq

/-- The fixed `bins_def` table; note the last bin is `[90, 999999)`, not
`[90, ∞)`. -/
def BINS_DEF : List (String × ℚ × ℚ) :=
  [("0-7d", 0, 7), ("7-14d", 7, 14), ("14-30d", 14, 30),
   ("30-60d", 30, 60), ("60-90d", 60, 90), ("90+d", 90, 999999)]

/-- The reported `release_interval_distribution`: one bin record per table
entry, counting the interval values with `lo <= v < hi`; empty when there
are no interval values. -/
def release_interval_distribution (commits : List Commit) :
    List HistogramBin :=
  let vals := release_interval_values commits
  if vals = [] then []
  else
    BINS_DEF.map (fun bin =>
      ⟨bin.1, bin.2.1, bin.2.2,
        vals.countP (fun v => decide (bin.2.1 ≤ v) && decide (v < bin.2.2))⟩)

theorem consecDiffs_length :
    ∀ l : List (Int × String), (consecDiffs l).length = l.length - 1
  | [] => rfl
  | [_] => rfl
  | a :: b :: rest => by
      simp only [consecDiffs, List.length_cons]
      rw [consecDiffs_length (b :: rest)]
      simp only [List.length_cons]
      omega

theorem consecDiffs_nonneg :
    ∀ l : List (Int × String), List.Sorted tagTupleLe l →
      ∀ d ∈ consecDiffs l, 0 ≤ d := by
  intro l
  induction l with
  | nil => intro _ d hd; cases hd
  | cons a t ih =>
      intro hsort d hd
      cases t with
      | nil => cases hd
      | cons b rest =>
          rcases List.mem_cons.mp hd with rfl | hd2
          · have hab : tagTupleLe a b :=
              List.rel_of_sorted_cons hsort b (List.mem_cons_self b rest)
            rcases hab with h | ⟨h, _⟩ <;> omega
          · exact ih hsort.of_cons d hd2

theorem interval_values_bounds (commits : List Commit)
    (hbound : ∀ d ∈ consecDiffs (taggedCommits commits),
      d < 999999 * 86400) :
    ∀ v ∈ release_interval_values commits, 0 ≤ v ∧ v < 999999 := by
  intro v hv
  obtain ⟨d, hd, rfl⟩ := List.mem_map.mp hv
  have hsort : List.Sorted tagTupleLe (taggedCommits commits) :=
    List.sorted_insertionSort tagTupleLe _
  have hnn : (0 : ℤ) ≤ d := consecDiffs_nonneg _ hsort d hd
  constructor
  · exact div_nonneg (by exact_mod_cast hnn) (by norm_num)
  · unfold daysOf
    rw [div_lt_iff₀ (by norm_num : (0 : ℚ) < 86400)]
    calc (d : ℚ) < ((999999 * 86400 : ℤ) : ℚ) := by
          exact_mod_cast hbound d hd
      _ = 999999 * 86400 := by push_cast; ring

theorem binCondTrue {lo hi x : ℚ} (h1 : lo ≤ x) (h2 : x < hi) :
    (decide (lo ≤ x) && decide (x < hi)) = true := by simp [h1, h2]

theorem binCondFalseLo {lo hi x : ℚ} (h : x < lo) :
    (decide (lo ≤ x) && decide (x < hi)) = false := by
  have hn : ¬ lo ≤ x := not_le.mpr h
  simp [hn]

theorem binCondFalseHi {lo hi x : ℚ} (h : hi ≤ x) :
    (decide (lo ≤ x) && decide (x < hi)) = false := by
  have hn : ¬ x < hi := not_lt.mpr h
  simp [hn]

/-- For `0 ≤ x < 999999`, exactly one of the six fixed bins contains x:
both as a filter length and as an indicator sum. -/
theorem binsPartition (x : ℚ) (h0 : 0 ≤ x) (hhi : x < 999999) :
    (BINS_DEF.filter (fun bin =>
      decide (bin.2.1 ≤ x) && decide (x < bin.2.2))).length = 1 ∧
    (BINS_DEF.map (fun bin =>
      if (decide (bin.2.1 ≤ x) && decide (x < bin.2.2)) = true then (1 : ℕ)
      else 0)).sum = 1 := by
  simp only [BINS_DEF, List.filter_cons, List.filter_nil, List.map_cons,
    List.map_nil, List.sum_cons, List.sum_nil]
  rcases lt_or_le x 7 with h7 | h7
  · rw [binCondTrue h0 h7, binCondFalseLo (by linarith),
      binCondFalseLo (by linarith), binCondFalseLo (by linarith),
      binCondFalseLo (by linarith), binCondFalseLo (by linarith)]
    simp
  · rcases lt_or_le x 14 with h14 | h14
    · rw [binCondFalseHi (by linarith), binCondTrue h7 h14,
        binCondFalseLo (by linarith), binCondFalseLo (by linarith),
        binCondFalseLo (by linarith), binCondFalseLo (by linarith)]
      simp
    · rcases lt_or_le x 30 with h30 | h30
      · rw [binCondFalseHi (by linarith), binCondFalseHi (by linarith),
          binCondTrue h14 h30, binCondFalseLo (by linarith),
          binCondFalseLo (by linarith), binCondFalseLo (by linarith)]
        simp
      · rcases lt_or_le x 60 with h60 | h60
        · rw [binCondFalseHi (by linarith), binCondFalseHi (by linarith),
            binCondFalseHi (by linarith), binCondTrue h30 h60,
            binCondFalseLo (by linarith), binCondFalseLo (by linarith)]
          simp
        · rcases lt_or_le x 90 with h90 | h90
          · rw [binCondFalseHi (by linarith), binCondFalseHi (by linarith),
              binCondFalseHi (by linarith), binCondFalseHi (by linarith),
              binCondTrue h60 h90, binCondFalseLo (by linarith)]
            simp
          · rw [binCondFalseHi (by linarith), binCondFalseHi (by linarith),
              binCondFalseHi (by linarith), binCondFalseHi (by linarith),
              binCondFalseHi (by linarith), binCondTrue h90 hhi]
            simp

theorem countP_bins_sum (vals : List ℚ)
    (h : ∀ v ∈ vals, 0 ≤ v ∧ v < 999999) :
    (BINS_DEF.map (fun bin => vals.countP (fun v =>
      decide (bin.2.1 ≤ v) && decide (v < bin.2.2)))).sum = vals.length := by
  induction vals with
  | nil => rfl
  | cons x t ih =>
      have hx := h x (List.mem_cons_self x t)
      have hpart := (binsPartition x hx.1 hx.2).2
      have iht := ih (fun v hv => h v (List.mem_cons_of_mem x hv))
      simp only [BINS_DEF, List.map_cons, List.map_nil, List.sum_cons,
        List.sum_nil, List.countP_cons, List.length_cons] at hpart iht ⊢
      omega

/-- C6 (amended): with the last bin being `[90, 999999)` rather than
`[90, ∞)`, whenever there are at least two tagged commits and every
consecutive tagged pair is less than 999999 days apart, the bin counts sum
to the number of consecutive tagged pairs (tagged count − 1), and every
interval value falls into exactly one bin. -/
theorem claim6_release_interval_bins :
    ∀ commits : List Commit,
      2 ≤ (taggedCommits commits).length →
      (∀ d ∈ consecDiffs (taggedCommits commits), d < 999999 * 86400) →
      ((release_interval_distribution commits).map HistogramBin.count).sum
        = (taggedCommits commits).length - 1 ∧
      ∀ v ∈ release_interval_values commits,
        ((release_interval_distribution commits).filter
          (fun bin => decide (bin.min_val ≤ v) &&
            decide (v < bin.max_val))).length = 1 := by
  intro commits h2 hbound
  have hbounds := interval_values_bounds commits hbound
  have hlen : (release_interval_values commits).length =
      (taggedCommits commits).length - 1 := by
    unfold release_interval_values
    rw [List.length_map, consecDiffs_length]
  have hne : ¬ (release_interval_values commits = []) := by
    intro h
    rw [h] at hlen
    simp at hlen
    omega
  constructor
  · unfold release_interval_distribution
    simp only []
    rw [if_neg hne, List.map_map]
    have heq : (HistogramBin.count ∘ fun (bin : String × ℚ × ℚ) =>
        (⟨bin.1, bin.2.1, bin.2.2, (release_interval_values commits).countP
          (fun v => decide (bin.2.1 ≤ v) && decide (v < bin.2.2))⟩ :
          HistogramBin)) = fun (bin : String × ℚ × ℚ) =>
        (release_interval_values commits).countP
          (fun v => decide (bin.2.1 ≤ v) && decide (v < bin.2.2)) := rfl
    rw [heq, countP_bins_sum _ hbounds, hlen]
  · intro v hv
    have hb := hbounds v hv
    unfold release_interval_distribution
    simp only []
    rw [if_neg hne, List.filter_map, List.length_map]
    exact (binsPartition v hb.1 hb.2).1

/-- Two tagged commits exactly 999999 days apart (a representable
history: tag timestamps are arbitrary). -/
def cTagA : Commit :=
  { sha := "t1", author := "", timestamp := 0, branch := "main",
    message := "", parents := [], tags := ["v1"], conventional_type := none,
    ticket_id := none, insertions := 0, deletions := 0, files_changed := 0,
    category := "other" }

def cTagB : Commit :=
  { sha := "t2", author := "", timestamp := 86399913600, branch := "main",
    message := "", parents := [], tags := ["v2"], conventional_type := none,
    ticket_id := none, insertions := 0, deletions := 0, files_changed := 0,
    category := "other" }

/-- C6 counterexample: with two tagged commits 999999 days apart (an
interval in `[90, ∞)` but not in `[90, 999999)`), no bin counts the
interval, so the bin counts sum to 0 while the number of consecutive
tagged pairs is 1 — the claim's `[90, ∞)` reading is false on the code. -/
theorem claim6_counterexample :
    ¬ (((release_interval_distribution [cTagA, cTagB]).map
        HistogramBin.count).sum
      = (taggedCommits [cTagA, cTagB]).length - 1) := by
  have htag : taggedCommits [cTagA, cTagB] =
      [(0, "v1"), (86399913600, "v2")] := by decide
  have hvals : release_interval_values [cTagA, cTagB] = [(999999 : ℚ)] := by
    unfold release_interval_values
    rw [htag]
    show [daysOf (86399913600 - 0)] = [(999999 : ℚ)]
    unfold daysOf
    norm_num
  have hdist : ((release_interval_distribution [cTagA, cTagB]).map
      HistogramBin.count).sum = 0 := by
    unfold release_interval_distribution
    simp only []
    rw [hvals, if_neg (by simp : ¬ ([(999999 : ℚ)] : List ℚ) = [])]
    simp only [BINS_DEF, List.map_cons, List.map_nil, List.sum_cons,
      List.sum_nil, List.countP_cons, List.countP_nil, Bool.and_eq_true,
      decide_eq_true_eq]
    norm_num
  intro h
  rw [hdist, htag] at h
  simp at h

/-- Witness for the amended C6 at a concrete input: two tagged commits
10 days apart give bin counts summing to 1 pair. -/
theorem claim6_witness :
    2 ≤ (taggedCommits [cTagA, { cTagB with timestamp := 864000 }]).length ∧
    ((release_interval_distribution
        [cTagA, { cTagB with timestamp := 864000 }]).map
      HistogramBin.count).sum
      = (taggedCommits [cTagA, { cTagB with timestamp := 864000 }]).length
        - 1 :=
  ⟨by decide, (claim6_release_interval_bins
    [cTagA, { cTagB with timestamp := 864000 }] (by decide) (by decide)).1⟩

/-! ## Drought detection (`change_flow.py` lines 161-227).  The daily
calendar from the earliest to the latest commit day is a list of
commit counts; calendar days are modelled by their index in that list
(`start_date`/`end_date` store day indices instead of ISO dates). -/

/-- Day of a UTC timestamp (`datetime.date()`), as an epoch day number. -/
def dayOf (ts : Int) : Int := ts / 86400

/-- The `DroughtPeriod` dataclass over calendar-day indices. -/
@[ext]
structure DroughtPeriod where
  start_date : Nat
  end_date : Nat
  duration_days : Nat
deriving DecidableEq

/-- The complete daily commit-count calendar (`day_commit_counts` read on
each day from `min_date` to `max_date`). -/
def dailyCommitCounts (commits : List Commit) : List Nat :=
  if commits = [] then []
  else
    (List.range ((maxTs (commits.map (fun c => dayOf c.timestamp)) -
        minTs (commits.map (fun c => dayOf c.timestamp))) + 1).toNat).map
      (fun i => (commits.filter (fun c =>
        dayOf c.timestamp ==
          minTs (commits.map (fun c2 => dayOf c2.timestamp)) + i)).length)

/-- Closing a zero run: emit a drought when the current run (if any) has
length at least 7.  `i` is the current day index, so the drought ends at
`i - 1`; at the end of the calendar this is the last day (the
trailing-drought case uses the same expression because there `i` is the
calendar length). -/
def closeRun (os : Option Nat) (len : Nat) (i : Nat) : List DroughtPeriod :=
  match os with
  | some s => if 7 ≤ len then [⟨s, i - 1, len⟩] else []
  | none => []

/-- The drought-detection loop: walk the calendar keeping the start index
and length of the current zero run; a non-zero day closes the run, and the
run still open at the end of the calendar is closed as a trailing
drought. -/
def droughtScan : List Nat → Nat → Option Nat → Nat → List DroughtPeriod
  | [], i, os, len => closeRun os len i
  | c :: rest, i, os, len =>
      if c = 0 then droughtScan rest (i + 1) (some (os.getD i)) (len + 1)
      else closeRun os len i ++ droughtScan rest (i + 1) none 0

/-- The reported `drought_periods` of a calendar. -/
def drought_periods (counts : List Nat) : List DroughtPeriod :=
  droughtScan counts 0 none 0

example : drought_periods [1, 0, 0, 0, 0, 0, 0, 0, 1] = [⟨1, 7, 7⟩] := by
  decide

example : drought_periods [1, 0, 0, 0, 0, 0, 0, 1] = [] := by decide

example : drought_periods [1, 0, 0, 0, 0, 0, 0, 0] = [⟨1, 7, 7⟩] := by
  decide

example : drought_periods [0, 0, 0, 0, 0, 0, 0, 0, 1, 0, 0, 0, 0, 0, 0, 1] =
    [⟨0, 7, 8⟩] := by decide

/-- A maximal run of zero-commit days from day `s` to day `e` of the
calendar (all days in `[s, e]` are zero, and the run can be extended
neither left nor right). -/
def MaxZeroRun (counts : List Nat) (s e : Nat) : Prop :=
  s ≤ e ∧ e < counts.length ∧
  (∀ k < e + 1, s ≤ k → counts.getD k 1 = 0) ∧
  (s = 0 ∨ counts.getD (s - 1) 0 ≠ 0) ∧
  (e + 1 = counts.length ∨ counts.getD (e + 1) 0 ≠ 0)

/-- The loop-state invariant of `droughtScan` at day `i`: with no open run
the previous day (if any) was non-zero; with an open run started at `s`,
the days `[s, i)` are zero, the length is `i - s ≥ 1`, and the run is
maximal on the left. -/
def StateOk (counts : List Nat) (i : Nat) (os : Option Nat) (len : Nat) :
    Prop :=
  match os with
  | none => len = 0 ∧ (i = 0 ∨ counts.getD (i - 1) 0 ≠ 0)
  | some s => s + len = i ∧ 0 < len ∧
      (∀ k < i, s ≤ k → counts.getD k 1 = 0) ∧
      (s = 0 ∨ counts.getD (s - 1) 0 ≠ 0)

/-- What `droughtScan` emits from state `(i, os)` onward: maximal zero
runs of length ≥ 7, either the one continuing the open run (start `s`) or
runs lying strictly beyond day `i`. -/
def EmitSpec (counts : List Nat) (i : Nat) (os : Option Nat)
    (d : DroughtPeriod) : Prop :=
  (MaxZeroRun counts d.start_date d.end_date ∧
    d.duration_days = d.end_date - d.start_date + 1 ∧
    7 ≤ d.duration_days) ∧
  (match os with
   | none => i ≤ d.start_date
   | some s => d.start_date = s ∨ i < d.start_date)

theorem getD_default_eq {counts : List Nat} {k : Nat}
    (h : k < counts.length) (a b : Nat) :
    counts.getD k a = counts.getD k b := by
  rw [List.getD_eq_getElem _ _ h, List.getD_eq_getElem _ _ h]

/-- A maximal zero run whose start coincides with the open run of the scan
state must end exactly where the zeros stop (at `i - 1`), whether the run
is stopped by a non-zero day `i` or by the end of the calendar. -/
theorem maxRun_end_at_stop {counts : List Nat} {s i : Nat}
    {d : DroughtPeriod}
    (hi : i ≤ counts.length)
    (hzeros : ∀ k < i, s ≤ k → counts.getD k 1 = 0)
    (hstop : i = counts.length ∨ counts.getD i 1 ≠ 0)
    (hsi : s < i)
    (hmax : MaxZeroRun counts d.start_date d.end_date)
    (hstart : d.start_date = s) :
    d.end_date = i - 1 := by
  obtain ⟨hse, helt, hz, hlft, hrt⟩ := hmax
  rcases Nat.lt_or_ge d.end_date i with hei | hei
  · by_contra hne
    have h1 : d.end_date + 1 < i := by omega
    have hz2 : counts.getD (d.end_date + 1) 1 = 0 := hzeros _ h1 (by omega)
    rcases hrt with h | h
    · omega
    · exact h (by rw [getD_default_eq (by omega) 0 1]; exact hz2)
  · exfalso
    rcases hstop with h | h
    · omega
    · exact h (hz i (by omega) (by omega))

set_option maxHeartbeats 1000000

theorem droughtScan_char :
    ∀ (l counts : List Nat) (i : Nat), l = counts.drop i →
      i ≤ counts.length →
      ∀ (os : Option Nat) (len : Nat), StateOk counts i os len →
      (∀ d, d ∈ droughtScan l i os len ↔ EmitSpec counts i os d) ∧
      List.Pairwise (fun d1 d2 => d1.end_date < d2.start_date)
        (droughtScan l i os len) := by
  intro l
  induction l with
  | nil =>
      intro counts i hl hi os len hok
      have hieq : i = counts.length := by
        have hlen := congrArg List.length hl
        simp only [List.length_nil, List.length_drop] at hlen
        omega
      cases os with
      | none =>
          simp only [droughtScan, closeRun]
          refine ⟨?_, List.Pairwise.nil⟩
          intro d
          constructor
          · intro h; cases h
          · intro h
            simp only [EmitSpec] at h
            obtain ⟨⟨⟨hse, helt, -, -, -⟩, -, -⟩, hstart⟩ := h
            omega
      | some s =>
          obtain ⟨hs, hlen0, hzeros, hleft⟩ := hok
          simp only [droughtScan, closeRun]
          by_cases h7 : 7 ≤ len
          · rw [if_pos h7]
            refine ⟨?_, by simp⟩
            intro d
            rw [List.mem_singleton]
            simp only [EmitSpec]
            constructor
            · intro hmem
              subst hmem
              refine ⟨⟨⟨?_, ?_, ?_, hleft, ?_⟩, ?_, h7⟩, Or.inl rfl⟩
              · show s ≤ i - 1; omega
              · show i - 1 < counts.length; omega
              · intro k hk hks
                have hk2 : k < i - 1 + 1 := hk
                have hks2 : s ≤ k := hks
                exact hzeros k (by omega) hks2
              · left; show i - 1 + 1 = counts.length; omega
              · show len = i - 1 - s + 1; omega
            · rintro ⟨⟨hmax, hdur, hd7⟩, hos⟩
              have hstart : d.start_date = s := by
                rcases hos with h | h
                · exact h
                · exfalso
                  obtain ⟨hse, helt, -, -, -⟩ := hmax
                  omega
              have hend : d.end_date = i - 1 :=
                maxRun_end_at_stop hi hzeros (Or.inl hieq) (by omega)
                  hmax hstart
              have hdd : d.duration_days = len := by omega
              exact DroughtPeriod.ext hstart hend hdd
          · rw [if_neg h7]
            refine ⟨?_, List.Pairwise.nil⟩
            intro d
            constructor
            · intro h; cases h
            · intro h
              simp only [EmitSpec] at h
              obtain ⟨⟨hmax, hdur, hd7⟩, hos⟩ := h
              have hstart : d.start_date = s := by
                rcases hos with h2 | h2
                · exact h2
                · exfalso
                  obtain ⟨hse, helt, -, -, -⟩ := hmax
                  omega
              have hend : d.end_date = i - 1 :=
                maxRun_end_at_stop hi hzeros (Or.inl hieq) (by omega)
                  hmax hstart
              omega
  | cons c rest ih =>
      intro counts i hl hi os len hok
      have hlt : i < counts.length := by
        by_contra h
        rw [List.drop_eq_nil_of_le (by omega)] at hl
        exact absurd hl (List.cons_ne_nil c rest)
      have hdrop := List.drop_eq_getElem_cons hlt
      rw [hdrop] at hl
      injection hl with hc hrest
      have hgd1 : counts.getD i 1 = c := by
        rw [List.getD_eq_getElem _ _ hlt, hc]
      have hgd0 : counts.getD i 0 = c := by
        rw [List.getD_eq_getElem _ _ hlt, hc]
      by_cases hc0 : c = 0
      · -- a zero day extends (or opens) the current run
        cases os with
        | none =>
            obtain ⟨hlen0, hprev⟩ := hok
            subst hlen0
            have hok2 : StateOk counts (i + 1) (some i) (0 + 1) := by
              refine ⟨by omega, by omega, ?_, hprev⟩
              intro k hk hks
              have hki : k = i := by omega
              subst hki
              rw [hgd1]; exact hc0
            obtain ⟨ihc, ihp⟩ := ih counts (i + 1) hrest (by omega)
              (some i) (0 + 1) hok2
            simp only [droughtScan, if_pos hc0, Option.getD]
            refine ⟨?_, ihp⟩
            intro d
            rw [ihc d]
            simp only [EmitSpec]
            constructor
            · rintro ⟨hcore, hos⟩
              refine ⟨hcore, by omega⟩
            · rintro ⟨hcore, hos⟩
              refine ⟨hcore, ?_⟩
              by_cases hsi : d.start_date = i
              · exact Or.inl hsi
              · right
                rcases Nat.lt_or_ge d.start_date (i + 2) with hlt2 | hge
                · exfalso
                  have hstart : d.start_date = i + 1 := by omega
                  obtain ⟨⟨-, -, -, hlft, -⟩, -, -⟩ := hcore
                  rcases hlft with h0 | hnz
                  · omega
                  · have hzz : counts.getD (i + 1 - 1) 0 = 0 := by
                      simp only [Nat.add_sub_cancel]
                      rw [hgd0]; exact hc0
                    rw [hstart] at hnz
                    exact hnz hzz
                · omega
        | some s =>
            obtain ⟨hs, hlen0, hzeros, hleft⟩ := hok
            have hok2 : StateOk counts (i + 1) (some s) (len + 1) := by
              refine ⟨by omega, by omega, ?_, hleft⟩
              intro k hk hks
              rcases Nat.lt_or_ge k i with hki | hki
              · exact hzeros k hki hks
              · have hkeq : k = i := by omega
                subst hkeq
                rw [hgd1]; exact hc0
            obtain ⟨ihc, ihp⟩ := ih counts (i + 1) hrest (by omega)
              (some s) (len + 1) hok2
            simp only [droughtScan, if_pos hc0, Option.getD]
            refine ⟨?_, ihp⟩
            intro d
            rw [ihc d]
            simp only [EmitSpec]
            constructor
            · rintro ⟨hcore, hos⟩
              refine ⟨hcore, ?_⟩
              rcases hos with h | h
              · exact Or.inl h
              · exact Or.inr (by omega)
            · rintro ⟨hcore, hos⟩
              refine ⟨hcore, ?_⟩
              rcases hos with h | h
              · exact Or.inl h
              · right
                rcases Nat.lt_or_ge d.start_date (i + 2) with hlt2 | hge
                · exfalso
                  have hstart : d.start_date = i + 1 := by omega
                  obtain ⟨⟨-, -, -, hlft, -⟩, -, -⟩ := hcore
                  rcases hlft with h0 | hnz
                  · omega
                  · have hzz : counts.getD (i + 1 - 1) 0 = 0 := by
                      simp only [Nat.add_sub_cancel]
                      rw [hgd0]; exact hc0
                    rw [hstart] at hnz
                    exact hnz hzz
                · omega
      · -- a non-zero day closes the current run
        have hok2 : StateOk counts (i + 1) none 0 := by
          refine ⟨rfl, Or.inr ?_⟩
          simp only [Nat.add_sub_cancel]
          rw [hgd0]; exact hc0
        obtain ⟨ihc, ihp⟩ := ih counts (i + 1) hrest (by omega) none 0 hok2
        simp only [droughtScan, if_neg hc0]
        cases os with
        | none =>
            obtain ⟨hlen0, hprev⟩ := hok
            simp only [closeRun, List.nil_append]
            refine ⟨?_, ihp⟩
            intro d
            rw [ihc d]
            simp only [EmitSpec]
            constructor
            · rintro ⟨hcore, hos⟩
              exact ⟨hcore, by omega⟩
            · rintro ⟨hcore, hos⟩
              refine ⟨hcore, ?_⟩
              rcases Nat.lt_or_ge d.start_date (i + 1) with hlt2 | hge
              · exfalso
                have hstart : d.start_date = i := by omega
                obtain ⟨⟨hse, helt, hz, -, -⟩, -, -⟩ := hcore
                have hzi := hz i (by omega) (by omega)
                rw [hgd1] at hzi
                exact hc0 hzi
              · exact hge
        | some s =>
            obtain ⟨hs, hlen0, hzeros, hleft⟩ := hok
            simp only [closeRun]
            by_cases h7 : 7 ≤ len
            · rw [if_pos h7]
              constructor
              · intro d
                rw [List.mem_append, List.mem_singleton, ihc d]
                simp only [EmitSpec]
                constructor
                · rintro (rfl | ⟨hcore, hos⟩)
                  · refine ⟨⟨⟨?_, ?_, ?_, hleft, ?_⟩, ?_, h7⟩, Or.inl rfl⟩
                    · show s ≤ i - 1; omega
                    · show i - 1 < counts.length; omega
                    · intro k hk hks
                      have hk2 : k < i - 1 + 1 := hk
                      have hks2 : s ≤ k := hks
                      exact hzeros k (by omega) hks2
                    · right
                      show counts.getD (i - 1 + 1) 0 ≠ 0
                      have h1i : i - 1 + 1 = i := by omega
                      rw [h1i, hgd0]; exact hc0
                    · show len = i - 1 - s + 1; omega
                  · exact ⟨hcore, Or.inr (by omega)⟩
                · rintro ⟨⟨hmax, hdur, hd7⟩, hos⟩
                  rcases hos with hstart | hgt
                  · left
                    have hend : d.end_date = i - 1 :=
                      maxRun_end_at_stop hi hzeros
                        (Or.inr (by rw [hgd1]; exact hc0)) (by omega)
                        hmax hstart
                    have hdd : d.duration_days = len := by omega
                    exact DroughtPeriod.ext hstart hend hdd
                  · exact Or.inr ⟨⟨hmax, hdur, hd7⟩, by omega⟩
              · rw [List.pairwise_append]
                refine ⟨by simp, ihp, ?_⟩
                intro d1 hd1 d2 hd2
                rw [List.mem_singleton] at hd1
                subst hd1
                have hd2e := (ihc d2).mp hd2
                simp only [EmitSpec] at hd2e
                obtain ⟨-, hos⟩ := hd2e
                show i - 1 < d2.start_date
                omega
            · rw [if_neg h7]
              simp only [List.nil_append]
              refine ⟨?_, ihp⟩
              intro d
              rw [ihc d]
              simp only [EmitSpec]
              constructor
              · rintro ⟨hcore, hos⟩
                exact ⟨hcore, Or.inr (by omega)⟩
              · rintro ⟨⟨hmax, hdur, hd7⟩, hos⟩
                rcases hos with hstart | hgt
                · exfalso
                  have hend : d.end_date = i - 1 :=
                    maxRun_end_at_stop hi hzeros
                      (Or.inr (by rw [hgd1]; exact hc0)) (by omega)
                      hmax hstart
                  obtain ⟨hse, -, -, -, -⟩ := hmax
                  omega
                · exact ⟨⟨hmax, hdur, hd7⟩, by omega⟩

/-- The characterization of the reported droughts: they are exactly the
maximal zero runs of length at least 7, with their day span and length,
and the report lists each one once. -/
theorem drought_periods_char (counts : List Nat) :
    (∀ d, d ∈ drought_periods counts ↔
      MaxZeroRun counts d.start_date d.end_date ∧
      d.duration_days = d.end_date - d.start_date + 1 ∧
      7 ≤ d.duration_days) ∧
    (drought_periods counts).Nodup := by
  obtain ⟨hchar, hpw⟩ := droughtScan_char counts counts 0
    (List.drop_zero counts).symm (Nat.zero_le _) none 0 ⟨rfl, Or.inl rfl⟩
  have hchar2 : ∀ d, d ∈ drought_periods counts ↔
      MaxZeroRun counts d.start_date d.end_date ∧
      d.duration_days = d.end_date - d.start_date + 1 ∧
      7 ≤ d.duration_days := by
    intro d
    rw [show drought_periods counts = droughtScan counts 0 none 0 from rfl,
      hchar d]
    simp only [EmitSpec]
    constructor
    · rintro ⟨hcore, -⟩; exact hcore
    · intro hcore; exact ⟨hcore, Nat.zero_le _⟩
  refine ⟨hchar2, ?_⟩
  refine List.Pairwise.imp_of_mem ?_ hpw
  intro d1 d2 h1 h2 hrel
  intro heq
  subst heq
  obtain ⟨⟨hse, -, -, -, -⟩, -, -⟩ := (hchar2 d1).mp h1
  omega

theorem maxZeroRun_start_le (counts : List Nat) {s1 e1 s2 e2 k : Nat}
    (h1 : MaxZeroRun counts s1 e1) (h2 : MaxZeroRun counts s2 e2)
    (hk21 : s2 ≤ k) (hk12 : k ≤ e1) :
    s2 ≤ s1 := by
  by_contra h
  push_neg at h
  obtain ⟨-, he1len, hz1, -, -⟩ := h1
  obtain ⟨-, -, -, hleft2, -⟩ := h2
  have hz : counts.getD (s2 - 1) 1 = 0 := hz1 (s2 - 1) (by omega) (by omega)
  rcases hleft2 with h0 | hnz
  · omega
  · exact hnz (by rw [getD_default_eq (by omega) 0 1]; exact hz)

theorem maxZeroRun_end_le (counts : List Nat) {s1 e1 s2 e2 k : Nat}
    (h1 : MaxZeroRun counts s1 e1) (h2 : MaxZeroRun counts s2 e2)
    (hk11 : s1 ≤ k) (hk22 : k ≤ e2) :
    e1 ≤ e2 := by
  by_contra h
  push_neg at h
  obtain ⟨-, he1len, hz1, -, -⟩ := h1
  obtain ⟨-, -, -, -, hright2⟩ := h2
  have hz : counts.getD (e2 + 1) 1 = 0 := hz1 (e2 + 1) (by omega) (by omega)
  rcases hright2 with h0 | hnz
  · omega
  · exact hnz (by rw [getD_default_eq (by omega) 0 1]; exact hz)

/-- Two maximal zero runs sharing a day are the same run. -/
theorem maxZeroRun_overlap (counts : List Nat) {s1 e1 s2 e2 k : Nat}
    (h1 : MaxZeroRun counts s1 e1) (h2 : MaxZeroRun counts s2 e2)
    (hk11 : s1 ≤ k) (hk12 : k ≤ e1) (hk21 : s2 ≤ k) (hk22 : k ≤ e2) :
    s1 = s2 ∧ e1 = e2 :=
  ⟨le_antisymm (maxZeroRun_start_le counts h2 h1 hk11 hk22)
    (maxZeroRun_start_le counts h1 h2 hk21 hk12),
   le_antisymm (maxZeroRun_end_le counts h1 h2 hk11 hk22)
    (maxZeroRun_end_le counts h2 h1 hk21 hk12)⟩

instance (counts : List Nat) (s e : Nat) :
    Decidable (MaxZeroRun counts s e) := by
  unfold MaxZeroRun; infer_instance

/-- C4: on any daily commit-count calendar, a maximal zero run of length
exactly 7 at days `[i, i+6]` yields exactly one reported drought, covering
those 7 days; a maximal zero run of length 6 yields no drought overlapping
it; and a left-maximal zero run of length ≥ 7 extending to the final
calendar day is still reported (trailing drought). -/
theorem claim4_drought_detection :
    ∀ (counts : List Nat) (i : Nat),
      (MaxZeroRun counts i (i + 6) →
        (drought_periods counts).count ⟨i, i + 6, 7⟩ = 1 ∧
        ∀ d ∈ drought_periods counts,
          d.start_date ≤ i + 6 → i ≤ d.end_date → d = ⟨i, i + 6, 7⟩) ∧
      (MaxZeroRun counts i (i + 5) →
        ∀ d ∈ drought_periods counts,
          ¬ (d.start_date ≤ i + 5 ∧ i ≤ d.end_date)) ∧
      (∀ s : Nat, s + 7 ≤ counts.length →
        (∀ k < counts.length, s ≤ k → counts.getD k 1 = 0) →
        (s = 0 ∨ counts.getD (s - 1) 0 ≠ 0) →
        ⟨s, counts.length - 1, counts.length - s⟩ ∈
          drought_periods counts) := by
  intro counts i
  obtain ⟨hchar, hnd⟩ := drought_periods_char counts
  have hoverlap : ∀ (e0 : Nat) (d : DroughtPeriod),
      MaxZeroRun counts i (i + e0) → d ∈ drought_periods counts →
      d.start_date ≤ i + e0 → i ≤ d.end_date →
      d.start_date = i ∧ d.end_date = i + e0 := by
    intro e0 d hrun hd hs he
    obtain ⟨hmax, hdur, h7⟩ := (hchar d).mp hd
    have hk11 : d.start_date ≤ max d.start_date i := le_max_left _ _
    have hk12 : max d.start_date i ≤ d.end_date := by
      obtain ⟨hse, -, -, -, -⟩ := hmax
      omega
    have hk21 : i ≤ max d.start_date i := le_max_right _ _
    have hk22 : max d.start_date i ≤ i + e0 := by
      obtain ⟨hse2, -, -, -, -⟩ := hrun
      omega
    have := maxZeroRun_overlap counts hmax hrun hk11 hk12 hk21 hk22
    exact ⟨this.1, this.2⟩
  refine ⟨?_, ?_, ?_⟩
  · intro hrun
    have hmem : (⟨i, i + 6, 7⟩ : DroughtPeriod) ∈ drought_periods counts := by
      rw [hchar ⟨i, i + 6, 7⟩]
      refine ⟨hrun, ?_, ?_⟩
      · show 7 = i + 6 - i + 1; omega
      · exact le_refl 7
    have huniq : ∀ d ∈ drought_periods counts,
        d.start_date ≤ i + 6 → i ≤ d.end_date → d = ⟨i, i + 6, 7⟩ := by
      intro d hd hs he
      obtain ⟨h1, h2⟩ := hoverlap 6 d hrun hd hs he
      obtain ⟨-, hdur, -⟩ := (hchar d).mp hd
      refine DroughtPeriod.ext h1 h2 ?_
      show d.duration_days = 7
      omega
    exact ⟨List.count_eq_one_of_mem hnd hmem, huniq⟩
  · intro hrun d hd hover
    obtain ⟨h1, h2⟩ := hoverlap 5 d hrun hd hover.1 hover.2
    obtain ⟨-, hdur, h7⟩ := (hchar d).mp hd
    omega
  · intro s hslen hzeros hleft
    rw [hchar ⟨s, counts.length - 1, counts.length - s⟩]
    refine ⟨⟨?_, ?_, ?_, hleft, ?_⟩, ?_, ?_⟩
    · show s ≤ counts.length - 1; omega
    · show counts.length - 1 < counts.length; omega
    · intro k hk hks
      have hk2 : k < counts.length - 1 + 1 := hk
      have hks2 : s ≤ k := hks
      exact hzeros k (by omega) hks2
    · left
      show counts.length - 1 + 1 = counts.length
      omega
    · show counts.length - s = counts.length - 1 - s + 1; omega
    · show 7 ≤ counts.length - s; omega

/-- Witness for C4 at a concrete calendar: the run of seven zero days at
indices 1..7 is reported exactly once, and a trailing run of length 7 is
reported. -/
theorem claim4_witness :
    (drought_periods [1, 0, 0, 0, 0, 0, 0, 0, 1]).count ⟨1, 7, 7⟩ = 1 ∧
    (⟨1, 7, 7⟩ : DroughtPeriod) ∈ drought_periods [1, 0, 0, 0, 0, 0, 0, 0] := by
  constructor
  · exact ((claim4_drought_detection [1, 0, 0, 0, 0, 0, 0, 0, 1] 1).1
      (by decide)).1
  · exact (claim4_drought_detection [1, 0, 0, 0, 0, 0, 0, 0] 1).2.2 1
      (by decide) (by decide) (by decide)

end CommitViz
